import Mathlib

/-!
# Verification of the mlsgit core against its specification

This file gives a shallow embedding, in Lean 4, of the parts of the
`mlsgit` Go repository that the specification's claims are about:

* the MLS-like group engine (`internal/mls`, the X25519/DH variant):
  epoch state, deterministic and DH-based epoch advance, member
  add/remove, committed-state serialization and `SyncFromCommitted`;
* the delta pipeline (`internal/delta`): base/delta record encryption,
  the ciphertext chain with its hash links, and `DecryptChain`;
* the clean filter and its cache (`internal/filter`, `internal/storage`);
* the epoch-key archive (`internal/mls/epoch.go`);
* Merkle sealing (`internal/crypto/signing.go`).

Go byte slices and Go strings are both modelled as `List Nat` (a Go
string is a byte sequence).  Machine integers are modelled as `Nat`
(epochs, sequence numbers, lengths; no arithmetic in the modelled code
can overflow a `uint64`/`int` in any reachable run) except where the
source checks for negativity, where `Int` is used.

External cryptographic primitives (HKDF-SHA256, AES-256-GCM, X25519,
Ed25519, SHA-256), which live in the Go standard library and
`golang.org/x/crypto` rather than in this repository, are modelled by
ideal functional counterparts: the hash and the KDF are injective
(collision-freeness idealization), the AEAD is a perfectly binding
injective encoding with decryption its exact partial inverse
(IND-CCA/INT-CTXT idealization), the signature scheme accepts exactly
the canonical signature (EUF-CMA idealization), and X25519 is a
commutative one-way function (`x25519 a (x25519 b g) = x25519 b
(x25519 a g)`).  Every definition is executable so that concrete runs
can be checked by `decide`/`rfl`.
-/

namespace Mlsgit

/-- Byte encoding of a literal ASCII string (Go `[]byte(s)`). -/
def strBytes (s : String) : List Nat :=
  s.data.map (fun c => c.toNat)

/-- Big-endian 8-byte encoding of a `uint64`
(Go `binary.BigEndian.PutUint64`); the argument is reduced mod 2^64. -/
def be64 (e : Nat) : List Nat :=
  let v := e % 2 ^ 64
  [v / 2 ^ 56 % 256, v / 2 ^ 48 % 256, v / 2 ^ 40 % 256, v / 2 ^ 32 % 256,
   v / 2 ^ 24 % 256, v / 2 ^ 16 % 256, v / 2 ^ 8 % 256, v % 256]

/-- Go `copy(dst[:32], src)` into a zeroed 32-byte buffer: the first 32
bytes of `src`, zero-padded on the right to exactly 32 bytes. -/
def pad32 (l : List Nat) : List Nat :=
  l.take 32 ++ List.replicate (32 - l.length) 0

@[simp] theorem pad32_length (l : List Nat) : (pad32 l).length = 32 := by
  simp [pad32, List.length_take]
  omega

/-- Go `rand.Read(nonce)` with a 12-byte buffer, modelled as
normalizing a supplied entropy string to exactly 12 bytes. -/
def mkNonce (r : List Nat) : List Nat :=
  r.take 12 ++ List.replicate (12 - r.length) 0

@[simp] theorem mkNonce_length (r : List Nat) : (mkNonce r).length = 12 := by
  simp [mkNonce, List.length_take]
  omega

/-! ## Ideal primitives -/

/-- Ideal HKDF-SHA256 with a 32-byte output
(`hkdf.New(sha256.New, ikm, salt, info)` read to length 32 in the Go
sources).  Idealized as an encoding that is injective in the
`(ikm, salt, info)` triple: real HKDF outputs are computationally
collision-free in their inputs. -/
def hkdfIdeal (ikm salt info : List Nat) : List Nat :=
  ikm.length :: salt.length :: info.length :: (ikm ++ salt ++ info)

theorem hkdfIdeal_inj {i1 s1 n1 i2 s2 n2 : List Nat}
    (h : hkdfIdeal i1 s1 n1 = hkdfIdeal i2 s2 n2) :
    i1 = i2 ∧ s1 = s2 ∧ n1 = n2 := by
  simp only [hkdfIdeal, List.cons.injEq] at h
  obtain ⟨hi, hs, hn, happ⟩ := h
  have h1 : i1 = i2 := by
    have := congrArg (List.take i1.length) happ
    simpa [List.take_left, hi, List.take_left'] using this
  subst h1
  have happ2 : i1 ++ (s1 ++ n1) = i1 ++ (s2 ++ n2) := by
    simpa [List.append_assoc] using happ
  have h2 : s1 ++ n1 = s2 ++ n2 := List.append_cancel_left happ2
  have h3 : s1 = s2 := by
    have := congrArg (List.take s1.length) h2
    simpa [List.take_left, hs, List.take_left'] using this
  subst h3
  exact ⟨rfl, rfl, List.append_cancel_left h2⟩

/-- Ideal SHA-256 composed with lowercase-hex rendering, as used by
`hashPrefix` (`internal/delta/pipeline.go`) and the Merkle tree
(`internal/crypto/signing.go`).  Idealized as an injective encoding of
the hashed bytes (collision-freeness); the hex step is an injective
byte-to-text map and is absorbed into the idealization. -/
def hashIdeal (data : List Nat) : List Nat :=
  data.length :: data

theorem hashIdeal_inj {a b : List Nat} (h : hashIdeal a = hashIdeal b) : a = b := by
  simp only [hashIdeal, List.cons.injEq] at h
  exact h.2

/-- Ideal X25519 (`curve25519.X25519(priv, pub)`).  Group elements are
singleton lists carrying the product of the scalars applied to the base
point, so that `x25519Ideal a (x25519Ideal b base) =
x25519Ideal b (x25519Ideal a base)` (Diffie-Hellman commutativity). -/
def x25519Ideal (priv pub : List Nat) : List Nat :=
  [(priv.foldr (fun a acc => a + 256 * acc + 1) 1) * pub.headD 1]

/-- The curve25519 base point (`curve25519.Basepoint`), as the neutral
scalar product. -/
def basePoint : List Nat := [1]

theorem x25519_comm (a b : List Nat) :
    x25519Ideal a (x25519Ideal b basePoint) = x25519Ideal b (x25519Ideal a basePoint) := by
  simp [x25519Ideal, basePoint, Nat.mul_comm]

/-- Ideal AES-256-GCM encryption (`crypto.AESGCMEncrypt` body after the
nonce draw): a perfectly binding encoding of `(key, nonce, plaintext)`.
The 16 trailing zeros stand in for the GCM tag, so the ciphertext is
always at least `TagSize = 16` bytes long, as the decryptor checks. -/
def aesgcmEnc (key nonce msg : List Nat) : List Nat :=
  key.length :: nonce.length :: msg.length :: (key ++ nonce ++ msg) ++ List.replicate 16 0

theorem aesgcmEnc_inj {k1 n1 m1 k2 n2 m2 : List Nat}
    (h : aesgcmEnc k1 n1 m1 = aesgcmEnc k2 n2 m2) :
    k1 = k2 ∧ n1 = n2 ∧ m1 = m2 := by
  simp only [aesgcmEnc, List.cons.injEq, List.cons_append] at h
  obtain ⟨hk, hn, hm, happ⟩ := h
  have happ' : k1 ++ n1 ++ m1 ++ List.replicate 16 0
      = k2 ++ n2 ++ m2 ++ List.replicate 16 0 := by
    simpa [List.append_assoc] using happ
  have h0 : k1 ++ n1 ++ m1 = k2 ++ n2 ++ m2 :=
    List.append_cancel_right happ'
  have h1 : k1 = k2 := by
    have := congrArg (List.take k1.length) h0
    simpa [List.append_assoc, List.take_left, hk, List.take_left'] using this
  subst h1
  have h2 : n1 ++ m1 = n2 ++ m2 := by
    have := congrArg (List.drop k1.length) h0
    simpa [List.append_assoc, List.drop_left] using this
  have h3 : n1 = n2 := by
    have := congrArg (List.take n1.length) h2
    simpa [List.take_left, hn, List.take_left'] using this
  subst h3
  exact ⟨rfl, rfl, List.append_cancel_left h2⟩

/-- Ideal AES-256-GCM decryption (`crypto.AESGCMDecrypt`): fails when
the ciphertext is shorter than the 16-byte tag (the source's explicit
check), otherwise succeeds exactly on outputs of `aesgcmEnc` under the
same key and nonce (perfect INT-CTXT: any other ciphertext is
rejected). -/
def aesgcmDec (key nonce ct : List Nat) : Option (List Nat) :=
  match ct with
  | kl :: nl :: ml :: rest =>
    if (kl :: nl :: ml :: rest : List Nat).length < 16 then none
    else if aesgcmEnc key nonce ((rest.drop (kl + nl)).take ml) = kl :: nl :: ml :: rest
    then some ((rest.drop (kl + nl)).take ml) else none
  | _ => none

theorem aesgcmDec_enc (key nonce msg : List Nat) :
    aesgcmDec key nonce (aesgcmEnc key nonce msg) = some msg := by
  have hmsg : (((key ++ nonce ++ msg ++ List.replicate 16 0).drop
      (key.length + nonce.length)).take msg.length) = msg := by
    rw [show key ++ nonce ++ msg ++ List.replicate 16 0
        = (key ++ nonce) ++ (msg ++ List.replicate 16 0) by simp [List.append_assoc],
      show key.length + nonce.length = (key ++ nonce).length by simp,
      List.drop_left, List.take_left]
  show aesgcmDec key nonce
      (key.length :: nonce.length :: msg.length :: (key ++ nonce ++ msg) ++ List.replicate 16 0)
      = some msg
  simp only [aesgcmDec, List.cons_append, List.append_assoc]
  rw [if_neg (by simp; omega)]
  rw [show (key ++ (nonce ++ (msg ++ List.replicate 16 0)))
      = key ++ nonce ++ msg ++ List.replicate 16 0 by simp [List.append_assoc]]
  rw [hmsg]
  rw [if_pos (by simp [aesgcmEnc, List.append_assoc])]

/-- If ideal decryption succeeds, the ciphertext is the canonical
encryption of the returned plaintext (perfect binding). -/
theorem aesgcmDec_ok {key nonce ct msg : List Nat}
    (h : aesgcmDec key nonce ct = some msg) : ct = aesgcmEnc key nonce msg := by
  rcases ct with _ | ⟨kl, _ | ⟨nl, _ | ⟨ml, rest⟩⟩⟩
  · simp [aesgcmDec] at h
  · simp [aesgcmDec] at h
  · simp [aesgcmDec] at h
  · simp only [aesgcmDec] at h
    split_ifs at h with h1 h2
    · simp only [Option.some.injEq] at h
      rw [h] at h2
      exact h2.symm

/-- Ideal Ed25519: the public key matching a private key
(`priv.Public()`), as an injective tagged copy. -/
def sigPubOf (priv : List Nat) : List Nat := 0 :: priv

/-- Ideal Ed25519 signing (`crypto.Sign`): the canonical signature,
determined by the signer's public key and the message. -/
def signIdeal (priv data : List Nat) : List Nat :=
  (sigPubOf priv).length :: data.length :: (sigPubOf priv ++ data)

/-- Ideal Ed25519 verification (`crypto.Verify`): accepts exactly the
canonical signature for this public key and message (EUF-CMA
idealization). -/
def verifyIdeal (pub data sig : List Nat) : Bool :=
  sig = pub.length :: data.length :: (pub ++ data)

theorem verify_sign (priv data : List Nat) :
    verifyIdeal (sigPubOf priv) data (signIdeal priv data) = true := by
  simp [verifyIdeal, signIdeal]

end Mlsgit

namespace Mlsgit

/-! ## Group engine (`internal/mls`, `src/unnamed/part_004`, X25519 variant) -/

/-- `memberEntry`: one leaf of the members sequence. -/
structure MemberEntry where
  sigPub : List Nat
  initPub : List Nat
  active : Bool
deriving DecidableEq, Repr

def defaultMember : MemberEntry := ⟨[], [], false⟩

/-- `encapEntry`: the encrypted update secret for a single member. -/
structure EncapEntry where
  leafIndex : Nat
  ciphertext : List Nat
deriving DecidableEq, Repr

/-- `updateEncap`: DH key-encapsulation data for one epoch transition. -/
structure UpdateEncap where
  fromEpoch : Nat
  ephPub : List Nat
  entries : List EncapEntry
deriving DecidableEq, Repr

/-- `MLSKeys`: the keys generated for a member. -/
structure MLSKeys where
  sigPriv : List Nat
  sigPub : List Nat
  initPriv : List Nat
  initPub : List Nat
deriving DecidableEq, Repr

/-- `KeyPackageData`: the serializable key package of a joiner. -/
structure KeyPackageData where
  identity : List Nat
  sigPub : List Nat
  initPub : List Nat
deriving DecidableEq, Repr

/-- `MLSGitGroup` together with its embedded `groupState`: the Go
struct pair is flattened into one record (`state.GroupID` ↦ `groupID`,
…, plus the `sigKey` and `initPriv` fields of the wrapper). -/
structure MLSGitGroup where
  groupID : List Nat
  epoch : Nat
  epochSecret : List Nat
  members : List MemberEntry
  ownLeafIndex : Nat
  updateEncaps : List UpdateEncap
  sigKey : List Nat
  initPriv : List Nat
deriving DecidableEq, Repr

/-- `committedGroupState`: the subset of group state committed to git;
deliberately excludes `epochSecret` and `ownLeafIndex`. -/
structure CommittedGroupState where
  groupID : List Nat
  epoch : Nat
  members : List MemberEntry
  updateEncaps : List UpdateEncap
deriving DecidableEq, Repr

/-- `ToCommittedBytes`, at the level of the parsed value: committed
state carries exactly these four fields of the group state.  (The JSON
byte rendering is modelled separately for the key-exclusion claim.) -/
def toCommitted (g : MLSGitGroup) : CommittedGroupState :=
  ⟨g.groupID, g.epoch, g.members, g.updateEncaps⟩

def labelEpochAdvance : List Nat := strBytes "mlsgit-epoch-advance"
def labelEncap : List Nat := strBytes "mlsgit-encap"
def labelEpochSecret : List Nat := strBytes "mlsgit-epoch-secret"

/-- `exportSecret`: HKDF with empty salt and `info = label ++ context`. -/
def exportSecret (epochSecret label context : List Nat) : List Nat :=
  hkdfIdeal epochSecret [] (label ++ context)

/-- `ExportEpochSecret`: the epoch application secret for file
encryption (label `"mlsgit-epoch-secret"`, empty context). -/
def exportEpochSecret (g : MLSGitGroup) : List Nat :=
  exportSecret g.epochSecret labelEpochSecret []

/-- `Create`: fresh group at epoch 0 with the creator as leaf 0.  The
32 random bytes drawn for the initial epoch secret are supplied as the
`epochSecretRand` entropy argument. -/
def create (groupID _identity : List Nat) (keys : MLSKeys) (epochSecretRand : List Nat) :
    MLSGitGroup :=
  { groupID := groupID
    epoch := 0
    epochSecret := pad32 epochSecretRand
    members := [⟨keys.sigPub, keys.initPub, true⟩]
    ownLeafIndex := 0
    updateEncaps := []
    sigKey := keys.sigPriv
    initPriv := keys.initPriv }

/-- `advanceEpoch`: deterministic epoch advance (add transitions):
`new_secret = HKDF(old_secret, salt = be64(epoch), info =
"mlsgit-epoch-advance")`, then `epoch++`. -/
def advanceEpoch (g : MLSGitGroup) : MLSGitGroup :=
  { g with
    epochSecret := hkdfIdeal g.epochSecret (be64 g.epoch) labelEpochAdvance
    epoch := g.epoch + 1 }

/-- `deriveEncapKey`: AES key from a DH shared secret,
`HKDF(shared, salt = be64(epoch), info = "mlsgit-encap")`. -/
def deriveEncapKey (dhShared : List Nat) (epoch : Nat) : List Nat :=
  hkdfIdeal dhShared (be64 epoch) labelEncap

/-- `advanceEpochDH`: DH-based epoch advance for member removal.  The
random draws of the source (`updateSecret`, `ephPriv`, and the AEAD
nonce of each entry) are supplied as entropy arguments; each is
normalized to the byte length the source draws. -/
def advanceEpochDH (g : MLSGitGroup) (updateSecretR ephPrivR : List Nat)
    (nonces : Nat → List Nat) : MLSGitGroup :=
  let updateSecret := pad32 updateSecretR
  let ephPriv := pad32 ephPrivR
  let ephPub := x25519Ideal ephPriv basePoint
  let entries := (g.members.enum.filter (fun p => p.2.active)).map (fun p =>
    ({ leafIndex := p.1
       ciphertext := mkNonce (nonces p.1) ++
         aesgcmEnc (deriveEncapKey (x25519Ideal ephPriv p.2.initPub) g.epoch)
           (mkNonce (nonces p.1)) updateSecret } : EncapEntry))
  { g with
    updateEncaps := g.updateEncaps ++
      [{ fromEpoch := g.epoch, ephPub := ephPub, entries := entries }]
    epochSecret := hkdfIdeal (pad32 g.epochSecret ++ updateSecret) (be64 g.epoch)
      labelEpochAdvance
    epoch := g.epoch + 1 }

/-- `applyDHAdvance`: decrypt a DH encapsulation addressed to our leaf
and advance the epoch; `none` models each `return err` path. -/
def applyDHAdvance (g : MLSGitGroup) (enc : UpdateEncap) : Option MLSGitGroup :=
  match enc.entries.find? (fun e => e.leafIndex = g.ownLeafIndex) with
  | none => none
  | some e =>
    if e.ciphertext.length < 12 then none
    else
      match aesgcmDec (deriveEncapKey (x25519Ideal g.initPriv enc.ephPub) g.epoch)
          (e.ciphertext.take 12) (e.ciphertext.drop 12) with
      | none => none
      | some updateSecret =>
        some { g with
          epochSecret := hkdfIdeal (pad32 g.epochSecret ++ pad32 updateSecret)
            (be64 g.epoch) labelEpochAdvance
          epoch := g.epoch + 1 }

/-- `advanceOneEpoch`: DH decapsulation when an encap exists for the
current epoch, deterministic HKDF otherwise. -/
def advanceOneEpoch (g : MLSGitGroup) (encaps : List UpdateEncap) : Option MLSGitGroup :=
  match encaps.find? (fun enc => enc.fromEpoch = g.epoch) with
  | some enc => applyDHAdvance g enc
  | none => some (advanceEpoch g)

/-- `AddMember`: append the new leaf, advance deterministically, return
the new state with its commit.  (The Welcome construction and its
ECIES encryption are not modelled: no claim depends on them and they
do not touch the state or the commit.) -/
def addMember (g : MLSGitGroup) (kp : KeyPackageData) :
    MLSGitGroup × CommittedGroupState :=
  let g1 := { g with members := g.members ++ [⟨kp.sigPub, kp.initPub, true⟩] }
  let g2 := advanceEpoch g1
  (g2, toCommitted g2)

/-- `g.state.Members[leafIndex].Active = false`. -/
def setInactive : List MemberEntry → Nat → List MemberEntry
  | [], _ => []
  | m :: t, 0 => { m with active := false } :: t
  | m :: t, n + 1 => m :: setInactive t n

/-- `RemoveMember`: bounds and self checks, mark inactive, DH-advance,
return the commit.  Modelled Go-style as `(new receiver state, result)`
so that the error paths visibly leave the state unchanged. -/
def removeMember (g : MLSGitGroup) (leaf : Int) (updateSecretR ephPrivR : List Nat)
    (nonces : Nat → List Nat) : MLSGitGroup × Except String CommittedGroupState :=
  if leaf < 0 ∨ (g.members.length : Int) ≤ leaf then
    (g, .error "leaf index out of range")
  else if leaf = (g.ownLeafIndex : Int) then
    (g, .error "cannot remove self")
  else
    let g1 := { g with members := setInactive g.members leaf.toNat }
    let g2 := advanceEpochDH g1 updateSecretR ephPrivR nonces
    (g2, .ok (toCommitted g2))

/-- The catch-up loop of `SyncFromCommitted`
(`for g.state.Epoch < committed.Epoch { advanceOneEpoch }`), with the
iteration count made explicit: each successful `advanceOneEpoch`
increments the epoch by exactly one, so the loop runs
`committed.epoch - g.epoch` times.  On an error the source returns
with the partially advanced receiver, modelled by the `false` result
carrying the partial state. -/
def ratchetLoop (encaps : List UpdateEncap) : Nat → MLSGitGroup → Bool × MLSGitGroup
  | 0, g => (true, g)
  | n + 1, g =>
    match advanceOneEpoch g encaps with
    | some g1 => ratchetLoop encaps n g1
    | none => (false, g)

/-- `SyncFromCommitted`, at the level of the parsed committed state
(the claims under study are about well-formed committed bytes; the
`json.Unmarshal` failure path returns `false` without mutation). -/
def syncFromCommitted (g : MLSGitGroup) (c : CommittedGroupState) : Bool × MLSGitGroup :=
  if c.epoch < g.epoch then (false, g)
  else if c.epoch = g.epoch then
    if g.updateEncaps.length < c.updateEncaps.length then
      (true, { g with updateEncaps := c.updateEncaps })
    else (false, g)
  else
    if c.members.length ≤ g.ownLeafIndex ∨
        (c.members.getD g.ownLeafIndex defaultMember).active = false then (false, g)
    else
      match ratchetLoop c.updateEncaps (c.epoch - g.epoch) g with
      | (false, g1) => (false, g1)
      | (true, g1) =>
        (true, { g1 with
          groupID := c.groupID
          members := c.members
          ownLeafIndex := g.ownLeafIndex
          updateEncaps := c.updateEncaps })

/-- One committing operation performed by a peer: `AddMember` with a
key package, or `RemoveMember` with its random draws. -/
inductive GroupOp where
  | add (kp : KeyPackageData)
  | remove (leaf : Int) (updateSecretR ephPrivR : List Nat) (nonces : Nat → List Nat)

/-- Run one operation; `none` when the call returns an error. -/
def applyOp (g : MLSGitGroup) : GroupOp → Option MLSGitGroup
  | .add kp => some (addMember g kp).1
  | .remove leaf u e n =>
    match removeMember g leaf u e n with
    | (g1, .ok _) => some g1
    | (_, .error _) => none

/-- Run a sequence of add/remove calls. -/
def applyOps (g : MLSGitGroup) : List GroupOp → Option MLSGitGroup
  | [] => some g
  | op :: rest => (applyOp g op).bind (fun g1 => applyOps g1 rest)

end Mlsgit

namespace Mlsgit

/-! ## Claim C2: the removed peer's deterministic ratchet misses the
DH-advanced secret -/

theorem advanceEpochDH_epochSecret (g : MLSGitGroup) (u e : List Nat)
    (n : Nat → List Nat) :
    (advanceEpochDH g u e n).epochSecret
      = hkdfIdeal (pad32 g.epochSecret ++ pad32 u) (be64 g.epoch) labelEpochAdvance := rfl

theorem setInactive_epochSecret (g : MLSGitGroup) (i : Nat) :
    ({ g with members := setInactive g.members i } : MLSGitGroup).epochSecret
      = g.epochSecret := rfl

/-- **C2.** For every removal performed at epoch `e` (a `RemoveMember`
call that returns a commit rather than an error), the removed peer's
deterministic ratchet `HKDF(epoch_secret(e), salt = be64(e),
info = "mlsgit-epoch-advance")` differs from the post-removal
`epoch_secret(e+1)` computed by the remover's DH-style advance.  The
hypothesis that the pre-removal epoch secret is not 64 bytes long holds
for every reachable state (epoch secrets are 32-byte HKDF outputs);
under the collision-free idealization of HKDF the two derivations have
input key material of different length, hence distinct outputs. -/
theorem removed_ratchet_ne_dh_secret (g g' : MLSGitGroup) (leaf : Int)
    (u e : List Nat) (n : Nat → List Nat) (c : CommittedGroupState)
    (hlen : g.epochSecret.length ≠ 64)
    (hok : removeMember g leaf u e n = (g', Except.ok c)) :
    hkdfIdeal g.epochSecret (be64 g.epoch) labelEpochAdvance ≠ g'.epochSecret := by
  unfold removeMember at hok
  by_cases h1 : leaf < 0 ∨ (g.members.length : Int) ≤ leaf
  · rw [if_pos h1] at hok
    exact absurd (congrArg Prod.snd hok) (by simp)
  · rw [if_neg h1] at hok
    by_cases h2 : leaf = (g.ownLeafIndex : Int)
    · rw [if_pos h2] at hok
      exact absurd (congrArg Prod.snd hok) (by simp)
    · rw [if_neg h2] at hok
      have hg' : g' = advanceEpochDH
          { g with members := setInactive g.members leaf.toNat } u e n :=
        (congrArg Prod.fst hok).symm
      intro hcontra
      rw [hg', advanceEpochDH_epochSecret] at hcontra
      have := (hkdfIdeal_inj hcontra).1
      have hl := congrArg List.length this
      simp at hl
      exact hlen hl

/-- Witness for `removed_ratchet_ne_dh_secret` at a concrete two-member
group: member 0 removes member 1. -/
theorem removed_ratchet_ne_dh_secret_witness :
    (let g : MLSGitGroup :=
      { groupID := [1], epoch := 3, epochSecret := [7, 7, 7]
        members := [⟨[2], [3], true⟩, ⟨[4], [5], true⟩]
        ownLeafIndex := 0, updateEncaps := [], sigKey := [6], initPriv := [8] }
    hkdfIdeal g.epochSecret (be64 g.epoch) labelEpochAdvance
      ≠ (removeMember g 1 [9] [10] (fun _ => [11])).1.epochSecret) := by
  have h := removed_ratchet_ne_dh_secret
    { groupID := [1], epoch := 3, epochSecret := [7, 7, 7]
      members := [⟨[2], [3], true⟩, ⟨[4], [5], true⟩]
      ownLeafIndex := 0, updateEncaps := [], sigKey := [6], initPriv := [8] }
    (advanceEpochDH
      { groupID := [1], epoch := 3, epochSecret := [7, 7, 7]
        members := [⟨[2], [3], true⟩, ⟨[4], [5], false⟩]
        ownLeafIndex := 0, updateEncaps := [], sigKey := [6], initPriv := [8] }
      [9] [10] (fun _ => [11]))
    1 [9] [10] (fun _ => [11])
    (toCommitted (advanceEpochDH
      { groupID := [1], epoch := 3, epochSecret := [7, 7, 7]
        members := [⟨[2], [3], true⟩, ⟨[4], [5], false⟩]
        ownLeafIndex := 0, updateEncaps := [], sigKey := [6], initPriv := [8] }
      [9] [10] (fun _ => [11])))
    (by decide) (by rfl)
  exact h

end Mlsgit

namespace Mlsgit

/-! ## Claim C7: `RemoveMember` rejects bad leaves without mutating -/

/-- **C7.** `RemoveMember(leaf)` returns an error whenever `leaf` is
negative, at or beyond the members list length, or equal to the
caller's own leaf index; in each case the receiver state (epoch, epoch
secret, members, update encapsulations — the whole record) is unchanged
and no commit bytes are produced (the result carries no commit). -/
theorem removeMember_rejects (g : MLSGitGroup) (leaf : Int)
    (u e : List Nat) (n : Nat → List Nat)
    (h : leaf < 0 ∨ (g.members.length : Int) ≤ leaf ∨ leaf = (g.ownLeafIndex : Int)) :
    (removeMember g leaf u e n).1 = g ∧
      ∃ s, (removeMember g leaf u e n).2 = Except.error s := by
  unfold removeMember
  by_cases h1 : leaf < 0 ∨ (g.members.length : Int) ≤ leaf
  · rw [if_pos h1]
    exact ⟨rfl, _, rfl⟩
  · rw [if_neg h1]
    have h2 : leaf = (g.ownLeafIndex : Int) := by
      rcases h with h | h | h
      · exact absurd (Or.inl h) h1
      · exact absurd (Or.inr h) h1
      · exact h
    rw [if_pos h2]
    exact ⟨rfl, _, rfl⟩

/-- Witness for `removeMember_rejects`: all three rejection reasons on
a concrete one-member group. -/
theorem removeMember_rejects_witness :
    (let g : MLSGitGroup :=
      { groupID := [1], epoch := 2, epochSecret := [7]
        members := [⟨[2], [3], true⟩]
        ownLeafIndex := 0, updateEncaps := [], sigKey := [4], initPriv := [5] }
    ((removeMember g (-1) [] [] (fun _ => [])).1 = g ∧
      ∃ s, (removeMember g (-1) [] [] (fun _ => [])).2 = Except.error s) ∧
    ((removeMember g 1 [] [] (fun _ => [])).1 = g ∧
      ∃ s, (removeMember g 1 [] [] (fun _ => [])).2 = Except.error s) ∧
    ((removeMember g 0 [] [] (fun _ => [])).1 = g ∧
      ∃ s, (removeMember g 0 [] [] (fun _ => [])).2 = Except.error s)) :=
  ⟨removeMember_rejects _ (-1) [] [] (fun _ => []) (by decide),
   removeMember_rejects _ 1 [] [] (fun _ => []) (by decide),
   removeMember_rejects _ 0 [] [] (fun _ => []) (by decide)⟩

/-! ## Claim C6: `SyncFromCommitted` no-op and equal-epoch semantics -/

/-- **C6.** `SyncFromCommitted` returns `false` and leaves the local
group state untouched when the committed epoch is strictly below the
local epoch, and likewise when the committed epoch is strictly above
but the local peer has been removed (own leaf out of range or inactive
in the committed members list).  When the committed epoch equals the
local epoch the call only copies newly observed update encapsulations:
every other field of the local state is preserved, the encapsulation
list is either kept or replaced by the committed one, and the returned
flag is `true` exactly when the committed list is strictly longer. -/
theorem syncFromCommitted_noop_cases (g : MLSGitGroup) (c : CommittedGroupState) :
    (c.epoch < g.epoch → syncFromCommitted g c = (false, g)) ∧
    (g.epoch < c.epoch →
      (c.members.length ≤ g.ownLeafIndex ∨
        (c.members.getD g.ownLeafIndex defaultMember).active = false) →
      syncFromCommitted g c = (false, g)) ∧
    (c.epoch = g.epoch →
      (syncFromCommitted g c).2.groupID = g.groupID ∧
      (syncFromCommitted g c).2.epoch = g.epoch ∧
      (syncFromCommitted g c).2.epochSecret = g.epochSecret ∧
      (syncFromCommitted g c).2.members = g.members ∧
      (syncFromCommitted g c).2.ownLeafIndex = g.ownLeafIndex ∧
      (syncFromCommitted g c).2.sigKey = g.sigKey ∧
      (syncFromCommitted g c).2.initPriv = g.initPriv ∧
      ((syncFromCommitted g c).2.updateEncaps = g.updateEncaps ∨
        (syncFromCommitted g c).2.updateEncaps = c.updateEncaps) ∧
      ((syncFromCommitted g c).1 = true ↔
        g.updateEncaps.length < c.updateEncaps.length)) := by
  refine ⟨fun hlt => ?_, fun hgt hrem => ?_, fun heq => ?_⟩
  · unfold syncFromCommitted
    rw [if_pos hlt]
  · unfold syncFromCommitted
    rw [if_neg (by omega), if_neg (by omega), if_pos hrem]
  · unfold syncFromCommitted
    rw [if_neg (by omega), if_pos heq]
    by_cases hl : g.updateEncaps.length < c.updateEncaps.length
    · rw [if_pos hl]
      refine ⟨rfl, rfl, rfl, rfl, rfl, rfl, rfl, Or.inr rfl, ?_⟩
      simpa using hl
    · rw [if_neg hl]
      refine ⟨rfl, rfl, rfl, rfl, rfl, rfl, rfl, Or.inl rfl, ?_⟩
      simpa using hl

/-- Witness for `syncFromCommitted_noop_cases`: a concrete local state
exercised against an older committed state, a newer committed state in
which the peer is inactive, and an equal-epoch committed state with one
new encapsulation. -/
theorem syncFromCommitted_noop_cases_witness :
    (let g : MLSGitGroup :=
      { groupID := [1], epoch := 4, epochSecret := [7]
        members := [⟨[2], [3], true⟩]
        ownLeafIndex := 0, updateEncaps := [], sigKey := [4], initPriv := [5] }
    syncFromCommitted g ⟨[1], 3, [⟨[2], [3], true⟩], []⟩ = (false, g) ∧
    syncFromCommitted g ⟨[1], 6, [⟨[2], [3], false⟩], []⟩ = (false, g) ∧
    ((syncFromCommitted g ⟨[1], 4, [], [⟨0, [9], []⟩]⟩).2.epochSecret = g.epochSecret ∧
      (syncFromCommitted g ⟨[1], 4, [], [⟨0, [9], []⟩]⟩).1 = true)) := by
  refine ⟨?_, ?_, ?_, ?_⟩
  · exact (syncFromCommitted_noop_cases _ _).1 (by decide)
  · exact (syncFromCommitted_noop_cases _ _).2.1 (by decide) (by decide)
  · exact ((syncFromCommitted_noop_cases _ _).2.2 (by decide)).2.2.1
  · exact ((syncFromCommitted_noop_cases _ _).2.2 (by decide)).2.2.2.2.2.2.2.2.mpr (by decide)

end Mlsgit


namespace Mlsgit

/-! ## Claim C3: committed JSON never carries `epoch_secret` or
`own_leaf_index` -/

/-- A JSON value, as produced by Go's `encoding/json` for the structs
of the group engine.  Byte-slice fields appear as base64 strings; the
base64 rendering is injective and introduces no object keys, so string
values carry the raw bytes here. -/
inductive Json where
  | jstr : List Nat → Json
  | jnum : Nat → Json
  | jbool : Bool → Json
  | jarr : List Json → Json
  | jobj : List (List Nat × Json) → Json
deriving Repr

/-- Whether a JSON document contains `k` as an object key, at any
nesting depth. -/
def jsonHasKey (k : List Nat) : Json → Bool
  | .jstr _ => false
  | .jnum _ => false
  | .jbool _ => false
  | .jarr xs => xs.attach.any (fun j => jsonHasKey k j.1)
  | .jobj fs => fs.any (fun p => p.1 == k) ||
      fs.attach.any (fun p => jsonHasKey k p.1.2)
decreasing_by
  · have := List.sizeOf_lt_of_mem j.2
    simp
    omega
  · have h1 := List.sizeOf_lt_of_mem p.2
    have h2 : sizeOf p.1.2 < sizeOf p.1 := by
      obtain ⟨a, b⟩ := p.1
      simp
    simp
    omega

theorem any_attach_eq {α : Type} (l : List α) (f : α → Bool) :
    (l.attach.any fun x => f x.1) = l.any f := by
  rw [Bool.eq_iff_iff]
  simp only [List.any_eq_true, List.mem_attach, true_and, Subtype.exists]
  exact ⟨fun ⟨a, ha, h⟩ => ⟨a, ha, h⟩, fun ⟨a, ha, h⟩ => ⟨a, ha, h⟩⟩

theorem jsonHasKey_jarr (k : List Nat) (xs : List Json) :
    jsonHasKey k (.jarr xs) = xs.any (fun j => jsonHasKey k j) := by
  rw [jsonHasKey, any_attach_eq]

theorem jsonHasKey_jobj (k : List Nat) (fs : List (List Nat × Json)) :
    jsonHasKey k (.jobj fs)
      = (fs.any (fun p => p.1 == k) || fs.any (fun p => jsonHasKey k p.2)) := by
  rw [jsonHasKey]
  congr 1
  exact any_attach_eq fs (fun p => jsonHasKey k p.2)

/-- `json.Marshal` of a `memberEntry` (struct tags `sig_pub`,
`init_pub`, `active`). -/
def memberEntryJson (m : MemberEntry) : Json :=
  .jobj [(strBytes "sig_pub", .jstr m.sigPub),
         (strBytes "init_pub", .jstr m.initPub),
         (strBytes "active", .jbool m.active)]

/-- `json.Marshal` of an `encapEntry` (tags `leaf_index`, `ciphertext`). -/
def encapEntryJson (e : EncapEntry) : Json :=
  .jobj [(strBytes "leaf_index", .jnum e.leafIndex),
         (strBytes "ciphertext", .jstr e.ciphertext)]

/-- `json.Marshal` of an `updateEncap` (tags `from_epoch`, `eph_pub`,
`entries`). -/
def updateEncapJson (u : UpdateEncap) : Json :=
  .jobj [(strBytes "from_epoch", .jnum u.fromEpoch),
         (strBytes "eph_pub", .jstr u.ephPub),
         (strBytes "entries", .jarr (u.entries.map encapEntryJson))]

/-- `ToCommittedBytes`, as the parsed JSON document: `json.Marshal` of
the `committedGroupState` struct with tags `group_id`, `epoch`,
`members`, and `update_encaps,omitempty` (the last key is omitted when
the encapsulation list is empty, per `omitempty`). -/
def committedJson (c : CommittedGroupState) : Json :=
  .jobj ([(strBytes "group_id", .jstr c.groupID),
          (strBytes "epoch", .jnum c.epoch),
          (strBytes "members", .jarr (c.members.map memberEntryJson))] ++
    (if c.updateEncaps.isEmpty then []
     else [(strBytes "update_encaps", .jarr (c.updateEncaps.map updateEncapJson))]))

theorem memberEntryJson_hasKey (k : List Nat) (m : MemberEntry)
    (h1 : (strBytes "sig_pub" == k) = false)
    (h2 : (strBytes "init_pub" == k) = false)
    (h3 : (strBytes "active" == k) = false) :
    jsonHasKey k (memberEntryJson m) = false := by
  rw [memberEntryJson, jsonHasKey_jobj]
  simp [h1, h2, h3, jsonHasKey]

theorem encapEntryJson_hasKey (k : List Nat) (e : EncapEntry)
    (h1 : (strBytes "leaf_index" == k) = false)
    (h2 : (strBytes "ciphertext" == k) = false) :
    jsonHasKey k (encapEntryJson e) = false := by
  rw [encapEntryJson, jsonHasKey_jobj]
  simp [h1, h2, jsonHasKey]

theorem updateEncapJson_hasKey (k : List Nat) (u : UpdateEncap)
    (h1 : (strBytes "from_epoch" == k) = false)
    (h2 : (strBytes "eph_pub" == k) = false)
    (h3 : (strBytes "entries" == k) = false)
    (h4 : (strBytes "leaf_index" == k) = false)
    (h5 : (strBytes "ciphertext" == k) = false) :
    jsonHasKey k (updateEncapJson u) = false := by
  have hentries : ((u.entries.map encapEntryJson).any fun j => jsonHasKey k j) = false := by
    rw [List.any_eq_false]
    intro j hj
    rw [List.mem_map] at hj
    obtain ⟨e, _, rfl⟩ := hj
    simp [encapEntryJson_hasKey k e h4 h5]
  rw [updateEncapJson, jsonHasKey_jobj]
  simp [h1, h2, h3, jsonHasKey, jsonHasKey_jarr, hentries]

theorem committedJson_hasKey_false (k : List Nat) (c : CommittedGroupState)
    (hg : (strBytes "group_id" == k) = false)
    (he : (strBytes "epoch" == k) = false)
    (hm : (strBytes "members" == k) = false)
    (hu : (strBytes "update_encaps" == k) = false)
    (h1 : (strBytes "sig_pub" == k) = false)
    (h2 : (strBytes "init_pub" == k) = false)
    (h3 : (strBytes "active" == k) = false)
    (h4 : (strBytes "from_epoch" == k) = false)
    (h5 : (strBytes "eph_pub" == k) = false)
    (h6 : (strBytes "entries" == k) = false)
    (h7 : (strBytes "leaf_index" == k) = false)
    (h8 : (strBytes "ciphertext" == k) = false) :
    jsonHasKey k (committedJson c) = false := by
  have hmem : ((c.members.map memberEntryJson).any fun j => jsonHasKey k j) = false := by
    rw [List.any_eq_false]
    intro j hj
    rw [List.mem_map] at hj
    obtain ⟨m, _, rfl⟩ := hj
    simp [memberEntryJson_hasKey k m h1 h2 h3]
  have henc : ((c.updateEncaps.map updateEncapJson).any fun j => jsonHasKey k j) = false := by
    rw [List.any_eq_false]
    intro j hj
    rw [List.mem_map] at hj
    obtain ⟨u, _, rfl⟩ := hj
    simp [updateEncapJson_hasKey k u h4 h5 h6 h7 h8]
  by_cases hemp : c.updateEncaps.isEmpty
  · rw [committedJson, if_pos hemp, jsonHasKey_jobj]
    simp [hg, he, hm, jsonHasKey, jsonHasKey_jarr, hmem]
  · rw [committedJson, if_neg hemp, jsonHasKey_jobj]
    simp [hg, he, hm, hu, jsonHasKey, jsonHasKey_jarr, hmem, henc]

/-- **C3.** For every group state, the JSON document produced by
`ToCommittedBytes` — and therefore the commit bytes returned by
`AddMember` and by a successful `RemoveMember`, both of which serialize
the updated state through `ToCommittedBytes` — contains neither an
`epoch_secret` key nor an `own_leaf_index` key, at any nesting depth. -/
theorem committed_json_excludes_secret_keys :
    ∀ g : MLSGitGroup,
      (jsonHasKey (strBytes "epoch_secret") (committedJson (toCommitted g)) = false ∧
       jsonHasKey (strBytes "own_leaf_index") (committedJson (toCommitted g)) = false) ∧
      (∀ kp, jsonHasKey (strBytes "epoch_secret")
          (committedJson (addMember g kp).2) = false ∧
        jsonHasKey (strBytes "own_leaf_index")
          (committedJson (addMember g kp).2) = false) ∧
      (∀ leaf u e n c, (removeMember g leaf u e n).2 = Except.ok c →
        jsonHasKey (strBytes "epoch_secret") (committedJson c) = false ∧
        jsonHasKey (strBytes "own_leaf_index") (committedJson c) = false) := by
  intro g
  refine ⟨⟨?_, ?_⟩, fun kp => ⟨?_, ?_⟩, fun leaf u e n c _ => ⟨?_, ?_⟩⟩ <;>
    exact committedJson_hasKey_false _ _ (by decide) (by decide) (by decide) (by decide)
      (by decide) (by decide) (by decide) (by decide) (by decide) (by decide)
      (by decide) (by decide)

/-- Witness for `committed_json_excludes_secret_keys`: its
remove-branch hypothesis discharged on a concrete two-member group. -/
theorem committed_json_excludes_secret_keys_witness :
    jsonHasKey (strBytes "epoch_secret") (committedJson (toCommitted (advanceEpochDH
      { groupID := [1], epoch := 0, epochSecret := [7]
        members := [⟨[2], [3], true⟩, ⟨[4], [5], false⟩]
        ownLeafIndex := 0, updateEncaps := [], sigKey := [6], initPriv := [8] }
      [9] [10] (fun _ => [11])))) = false ∧
    jsonHasKey (strBytes "own_leaf_index") (committedJson (toCommitted (advanceEpochDH
      { groupID := [1], epoch := 0, epochSecret := [7]
        members := [⟨[2], [3], true⟩, ⟨[4], [5], false⟩]
        ownLeafIndex := 0, updateEncaps := [], sigKey := [6], initPriv := [8] }
      [9] [10] (fun _ => [11])))) = false :=
  (committed_json_excludes_secret_keys
    { groupID := [1], epoch := 0, epochSecret := [7]
      members := [⟨[2], [3], true⟩, ⟨[4], [5], true⟩]
      ownLeafIndex := 0, updateEncaps := [], sigKey := [6], initPriv := [8] }).2.2
    1 [9] [10] (fun _ => [11]) _ (by rfl)

end Mlsgit

namespace Mlsgit

/-! ## Claim C5: the delta text format round-trips
(`internal/delta/differ.go`) -/

def cpl : List Nat → List Nat → Nat
  | a :: as, b :: bs => if a = b then cpl as bs + 1 else 0
  | _, _ => 0

theorem cpl_le_left : ∀ a b : List Nat, cpl a b ≤ a.length
  | [], _ => by simp [cpl]
  | _ :: _, [] => by simp [cpl]
  | a :: as, b :: bs => by
    rw [cpl]
    by_cases h : a = b
    · rw [if_pos h]
      simpa using cpl_le_left as bs
    · rw [if_neg h]
      simp

theorem cpl_le_right : ∀ a b : List Nat, cpl a b ≤ b.length
  | [], _ => by simp [cpl]
  | _ :: _, [] => by simp [cpl]
  | a :: as, b :: bs => by
    rw [cpl]
    by_cases h : a = b
    · rw [if_pos h]
      simpa using cpl_le_right as bs
    · rw [if_neg h]
      simp

theorem take_cpl_eq : ∀ a b : List Nat, a.take (cpl a b) = b.take (cpl a b)
  | [], b => by simp [cpl]
  | _ :: _, [] => by simp [cpl]
  | a :: as, b :: bs => by
    rw [cpl]
    by_cases h : a = b
    · rw [if_pos h]
      simp [List.take_succ_cons, h, take_cpl_eq as bs]
    · rw [if_neg h]
      simp

/-- Common suffix length, via the common prefix of the reversals. -/
def csl (a b : List Nat) : Nat := cpl a.reverse b.reverse

theorem csl_le_left (a b : List Nat) : csl a b ≤ a.length := by
  simpa using cpl_le_left a.reverse b.reverse

theorem csl_le_right (a b : List Nat) : csl a b ≤ b.length := by
  simpa using cpl_le_right a.reverse b.reverse

theorem drop_csl_eq (a b : List Nat) :
    a.drop (a.length - csl a b) = b.drop (b.length - csl a b) := by
  have h1 : (a.drop (a.length - csl a b)).reverse
      = a.reverse.take (a.length - (a.length - csl a b)) := List.reverse_drop
  have h2 : (b.drop (b.length - csl a b)).reverse
      = b.reverse.take (b.length - (b.length - csl a b)) := List.reverse_drop
  have ha : a.length - (a.length - csl a b) = csl a b := by
    have := csl_le_left a b
    omega
  have hb : b.length - (b.length - csl a b) = csl a b := by
    have := csl_le_right a b
    omega
  rw [ha] at h1
  rw [hb] at h2
  have := take_cpl_eq a.reverse b.reverse
  have hrev : (a.drop (a.length - csl a b)).reverse = (b.drop (b.length - csl a b)).reverse := by
    rw [h1, h2]
    exact this
  have := congrArg List.reverse hrev
  simpa using this


end Mlsgit

namespace Mlsgit

structure Patch where
  keep : Nat
  removed : List Nat
  inserted : List Nat
deriving DecidableEq, Repr

def lenPref (l : List Nat) : List Nat := l.length :: l

def readLenPref : List Nat → Option (List Nat × List Nat)
  | n :: rest => if n ≤ rest.length then some (rest.take n, rest.drop n) else none
  | [] => none

theorem readLenPref_lenPref (l rest : List Nat) :
    readLenPref (lenPref l ++ rest) = some (l, rest) := by
  show readLenPref (l.length :: (l ++ rest)) = some (l, rest)
  rw [readLenPref]
  rw [if_pos (by simp)]
  rw [List.take_left, List.drop_left]

def encodePatch (p : Patch) : List Nat :=
  p.keep :: (lenPref p.removed ++ lenPref p.inserted)

def decodePatch (s : List Nat) : Option Patch :=
  match s with
  | k :: rest =>
    match readLenPref rest with
    | none => none
    | some (removed, rest2) =>
      match readLenPref rest2 with
      | none => none
      | some (inserted, rest3) =>
        if rest3 = [] then some ⟨k, removed, inserted⟩ else none
  | [] => none

theorem readLenPref_lenPref_nil (l : List Nat) : readLenPref (lenPref l) = some (l, []) := by
  show readLenPref (l.length :: l) = _
  rw [readLenPref, if_pos (le_refl _)]
  simp

theorem decodePatch_encodePatch (p : Patch) : decodePatch (encodePatch p) = some p := by
  rw [encodePatch]
  simp only [decodePatch, readLenPref_lenPref, readLenPref_lenPref_nil]
  simp

/-- Modelled from the spec: the delta text format.  The Go sources
delegate `ComputeDelta`/`ApplyDelta` to the external
`sergi/go-diff/diffmatchpatch` library, whose code is not part of this
repository; the spec requires only a textual patch format with
`apply(old, diff(old, new)) == new` for all strings and explicitly
allows any format satisfying that contract.  This model uses a single
replacement hunk between the longest common prefix and the longest
common suffix of the remainders: `diff` records the shared-prefix
length, the removed bytes, and the inserted bytes. -/
def computeDelta (oldText newText : List Nat) : List Nat :=
  let p := cpl oldText newText
  let oldR := oldText.drop p
  let newR := newText.drop p
  let s := csl oldR newR
  encodePatch ⟨p, oldR.take (oldR.length - s), newR.take (newR.length - s)⟩

/-- Modelled from the spec: apply a delta produced by `computeDelta`.
Fails (the hunk does not apply) when the recorded removed bytes do not
occur at the recorded offset of the old text. -/
def applyDelta (oldText delta : List Nat) : Except String (List Nat) :=
  match decodePatch delta with
  | none => .error "parse delta"
  | some p =>
    if p.keep + p.removed.length ≤ oldText.length ∧
        (oldText.drop p.keep).take p.removed.length = p.removed then
      .ok (oldText.take p.keep ++ p.inserted ++ oldText.drop (p.keep + p.removed.length))
    else .error "delta patch failed"

/-- **C5.** For all byte strings `old` and `new`,
`ApplyDelta(old, ComputeDelta(old, new))` succeeds (no hunk fails) and
returns exactly `new`.  (Strings are byte sequences; a UTF-8 string is
a particular byte string, so the claim's quantification is covered.) -/
theorem applyDelta_computeDelta (oldText newText : List Nat) :
    applyDelta oldText (computeDelta oldText newText) = .ok newText := by
  simp only [computeDelta, applyDelta, decodePatch_encodePatch]
  set p := cpl oldText newText with hp
  set oldR := oldText.drop p with holdR
  set newR := newText.drop p with hnewR
  set s := csl oldR newR with hs
  have hsl : s ≤ oldR.length := csl_le_left _ _
  have hsr : s ≤ newR.length := csl_le_right _ _
  have hpl : p ≤ oldText.length := cpl_le_left _ _
  have hpr : p ≤ newText.length := cpl_le_right _ _
  have holdlen : oldR.length = oldText.length - p := by simp [holdR]
  have hremlen : (oldR.take (oldR.length - s)).length = oldR.length - s := by
    simp
  have hc1 : (oldR.take (oldR.length - s)).length + p ≤ oldText.length := by
    rw [hremlen]
    omega
  rw [if_pos ⟨by omega, by rw [hremlen]⟩]
  rw [hremlen]
  have hdd : oldText.drop (p + (oldR.length - s)) = oldR.drop (oldR.length - s) := by
      rw [holdR, List.drop_drop]
  rw [hdd, drop_csl_eq oldR newR, ← hs]
  rw [List.append_assoc, List.take_append_drop]
  rw [hnewR]
  rw [show oldText.take p = newText.take p from by rw [hp]; exact take_cpl_eq oldText newText]
  exact congrArg Except.ok (List.take_append_drop p newText)


end Mlsgit

namespace Mlsgit

/-! ## Delta pipeline (`internal/delta/pipeline.go`) -/

/-- Per-file AES key (`crypto.DeriveFileKey`):
`HKDF(epoch_secret, salt = file_path, info = "mlsgit-file-key" ‖ be64(epoch))`. -/
def deriveFileKey (epochSecret filePath : List Nat) (epoch : Nat) : List Nat :=
  hkdfIdeal epochSecret filePath (strBytes "mlsgit-file-key" ++ be64 epoch)

/-- `DeltaRecord`: one encrypted base/delta block of the chain. -/
structure DeltaRecord where
  epoch : Nat
  seq : Nat
  iv : List Nat
  ct : List Nat
  sig : List Nat
  author : List Nat
  prevHash : List Nat
  filePath : List Nat
deriving DecidableEq, Repr

/-- The injective byte-to-wire map of the record codec, standing for
the base64url alphabet: strictly monotone, never produces the newline
byte 10 (base64url output contains no newline, while the chain
separator is newline-delimited). -/
def avoid10 (n : Nat) : Nat := if n < 10 then n else n + 1

/-- Partial inverse of `avoid10`; rejects byte 10, which is not in the
codec's output alphabet (a newline is not a base64url character). -/
def unavoid10 (n : Nat) : Option Nat :=
  if n < 10 then some n else if n = 10 then none else some (n - 1)

theorem unavoid10_avoid10 (n : Nat) : unavoid10 (avoid10 n) = some n := by
  unfold avoid10 unavoid10
  by_cases h : n < 10
  · rw [if_pos h, if_pos h]
  · rw [if_neg h, if_neg (by omega), if_neg (by omega)]
    simp

theorem avoid10_ne_ten (n : Nat) : avoid10 n ≠ 10 := by
  unfold avoid10
  by_cases h : n < 10
  · rw [if_pos h]; omega
  · rw [if_neg h]; omega

/-- The length-delimited flat rendering of a record, standing for its
JSON object form: the two numeric fields followed by the six
length-prefixed variable fields, in the struct order of
`deltaRecordJSON`. -/
def rawRecord (r : DeltaRecord) : List Nat :=
  r.epoch :: r.seq :: (lenPref r.iv ++ lenPref r.ct ++ lenPref r.sig ++
    lenPref r.author ++ lenPref r.prevHash ++ lenPref r.filePath)

/-- `DeltaRecord.ToB64`: the wire form of a record — its JSON rendering
pushed through the newline-free alphabet. -/
def recordToB64 (r : DeltaRecord) : List Nat :=
  (rawRecord r).map avoid10

/-- `DeltaRecordFromB64`: decode the wire form; `none` models every
base64/JSON parse error path. -/
def recordFromB64 (s : List Nat) : Option DeltaRecord :=
  match s.mapM unavoid10 with
  | none => none
  | some raw =>
    match raw with
    | e :: q :: rest =>
      match readLenPref rest with
      | none => none
      | some (iv, r1) =>
        match readLenPref r1 with
        | none => none
        | some (ct, r2) =>
          match readLenPref r2 with
          | none => none
          | some (sig, r3) =>
            match readLenPref r3 with
            | none => none
            | some (author, r4) =>
              match readLenPref r4 with
              | none => none
              | some (prevHash, r5) =>
                match readLenPref r5 with
                | none => none
                | some (filePath, r6) =>
                  if r6 = [] then some ⟨e, q, iv, ct, sig, author, prevHash, filePath⟩
                  else none
    | _ => none

theorem mapM_unavoid10_map_avoid10 (l : List Nat) :
    (l.map avoid10).mapM unavoid10 = some l := by
  induction l with
  | nil => rfl
  | cons a t ih =>
    rw [List.map_cons, List.mapM_cons, unavoid10_avoid10, ih]
    rfl

theorem recordFromB64_toB64 (r : DeltaRecord) : recordFromB64 (recordToB64 r) = some r := by
  rw [recordToB64, recordFromB64, mapM_unavoid10_map_avoid10]
  show (match rawRecord r with
    | e :: q :: rest => _
    | _ => none) = some r
  rw [rawRecord]
  simp only [List.append_assoc]
  simp only [readLenPref_lenPref]
  rw [show lenPref r.filePath = lenPref r.filePath ++ [] by simp] 
  simp only [readLenPref_lenPref]
  rfl

/-- `config.DeltaSeparator`. -/
def deltaSep : List Nat := strBytes "\n---MLSGIT-DELTA---\n"

/-- `pipeline.hashPrefix`: lowercase hex of SHA-256, under the
collision-free idealization `hashIdeal`. -/
def hashPrefix (data : List Nat) : List Nat := hashIdeal data

/-- `EncryptBaseBlock`: derive the file key, AEAD-encrypt the
plaintext under a fresh nonce (the draw is the `ivR` entropy
argument), sign `iv‖ct`, and emit the single-record chain.  The only
error path of the source is a failed random read, which the entropy
argument model cannot hit. -/
def encryptBaseBlock (plaintext epochSecret filePath : List Nat) (epoch : Nat)
    (author privKey ivR : List Nat) : List Nat :=
  let key := deriveFileKey epochSecret filePath epoch
  let iv := mkNonce ivR
  let ct := aesgcmEnc key iv plaintext
  let sig := signIdeal privKey (iv ++ ct)
  recordToB64 ⟨epoch, 0, iv, ct, sig, author, [], filePath⟩

/-- `EncryptDelta`: encrypt the delta text, link it to the existing
chain through `prev_hash = hashPrefix(prevCiphertext)`, and append the
new record after the separator. -/
def encryptDelta (deltaText epochSecret filePath : List Nat) (epoch seq : Nat)
    (author privKey prevCiphertext ivR : List Nat) : List Nat :=
  let key := deriveFileKey epochSecret filePath epoch
  let iv := mkNonce ivR
  let ct := aesgcmEnc key iv deltaText
  let sig := signIdeal privKey (iv ++ ct)
  let prevHash := hashPrefix prevCiphertext
  prevCiphertext ++ deltaSep ++
    recordToB64 ⟨epoch, seq, iv, ct, sig, author, prevHash, filePath⟩

/-- `hasPref pre s`: whether `pre` is a prefix of `s` (the substring
check `strings.Split`/`strings.Count` perform at each position). -/
def hasPref : List Nat → List Nat → Bool
  | [], _ => true
  | _ :: _, [] => false
  | a :: as, b :: bs => a == b && hasPref as bs

theorem hasPref_append_self : ∀ (p s : List Nat), hasPref p (p ++ s) = true
  | [], _ => rfl
  | a :: as, s => by
    rw [List.cons_append, hasPref]
    simp [hasPref_append_self as s]

theorem hasPref_head_ne {p s : List Nat} {a b : Nat} (h : a ≠ b) :
    hasPref (a :: p) (b :: s) = false := by
  rw [hasPref]
  simp [h]

/-- `strings.Split(s, sep)` (greedy left-to-right scan); the fuel is an
upper bound on the scan length, so that the definition is structural
(and kernel-reducible); `splitSep` instantiates it with `s.length`. -/
def splitSepGo : Nat → List Nat → List Nat → List (List Nat)
  | 0, acc, s => [acc ++ s]
  | fuel + 1, acc, s =>
    if hasPref deltaSep s then acc :: splitSepGo fuel [] (s.drop deltaSep.length)
    else
      match s with
      | [] => [acc]
      | c :: t => splitSepGo fuel (acc ++ [c]) t

def splitSep (s : List Nat) : List (List Nat) := splitSepGo s.length [] s

/-- `strings.Count(s, deltaSep)` = `CountDeltas`: non-overlapping
occurrences, greedy left-to-right, with the same explicit fuel. -/
def countSepGo : Nat → List Nat → Nat
  | 0, _ => 0
  | fuel + 1, s =>
    if hasPref deltaSep s then countSepGo fuel (s.drop deltaSep.length) + 1
    else
      match s with
      | [] => 0
      | _ :: t => countSepGo fuel t

/-- `CountDeltas`: the number of separators in the chain string. -/
def countDeltas (ciphertext : List Nat) : Nat := countSepGo ciphertext.length ciphertext

end Mlsgit

namespace Mlsgit

/-! ## `DecryptChain` -/

/-- The distinguishable failure sites of `DecryptChain` (each
corresponds to one `fmt.Errorf` return of the source). -/
inductive DecErr where
  | emptyChain
  | parseRecord
  | epochSecretLookup
  | keyLookup
  | sigInvalid
  | aeadFailure
  | chainBroken
  | patchFailed
deriving DecidableEq, Repr

/-- The delta loop of `DecryptChain` (`for i := 1; i < len(blocks)`),
carrying the running plaintext and the accumulated previous content
(`prevContent`); the final accumulator is returned alongside the text
so that the loop is compositional. -/
def processRest (getEpochSecret : Nat → Option (List Nat)) (filePath : List Nat)
    (getPublicKey : List Nat → Option (List Nat)) :
    List Nat → List Nat → List (List Nat) → Except DecErr (List Nat × List Nat)
  | prevContent, text, [] => .ok (text, prevContent)
  | prevContent, text, b :: bs =>
    match recordFromB64 b with
    | none => .error .parseRecord
    | some record =>
      if record.prevHash ≠ hashPrefix prevContent then .error .chainBroken
      else
        match getEpochSecret record.epoch with
        | none => .error .epochSecretLookup
        | some secret =>
          let deltaPath := if record.filePath = [] then filePath else record.filePath
          let key := deriveFileKey secret deltaPath record.epoch
          match getPublicKey record.author with
          | none => .error .keyLookup
          | some pub =>
            if verifyIdeal pub (record.iv ++ record.ct) record.sig = false then
              .error .sigInvalid
            else
              match aesgcmDec key record.iv record.ct with
              | none => .error .aeadFailure
              | some deltaBytes =>
                match applyDelta text deltaBytes with
                | .error _ => .error .patchFailed
                | .ok text1 =>
                  processRest getEpochSecret filePath getPublicKey
                    (prevContent ++ deltaSep ++ b) text1 bs

/-- `DecryptChain`: split on the separator, decrypt the base block
(parse, epoch-secret lookup, signature check, AEAD), then verify the
hash chain and apply each delta in order. -/
def decryptChain (ciphertext : List Nat) (getEpochSecret : Nat → Option (List Nat))
    (filePath : List Nat) (getPublicKey : List Nat → Option (List Nat)) :
    Except DecErr (List Nat) :=
  match splitSep ciphertext with
  | [] => .error .emptyChain
  | b0 :: rest =>
    match recordFromB64 b0 with
    | none => .error .parseRecord
    | some baseRecord =>
      let basePath := if baseRecord.filePath = [] then filePath else baseRecord.filePath
      match getEpochSecret baseRecord.epoch with
      | none => .error .epochSecretLookup
      | some baseSecret =>
        let baseKey := deriveFileKey baseSecret basePath baseRecord.epoch
        match getPublicKey baseRecord.author with
        | none => .error .keyLookup
        | some pub =>
          if verifyIdeal pub (baseRecord.iv ++ baseRecord.ct) baseRecord.sig = false then
            .error .sigInvalid
          else
            match aesgcmDec baseKey baseRecord.iv baseRecord.ct with
            | none => .error .aeadFailure
            | some plaintext =>
              match processRest getEpochSecret filePath getPublicKey b0 plaintext rest with
              | .error e => .error e
              | .ok (text, _) => .ok text

/-- Sequential application of delta texts
(`apply(apply(base, d1), d2)…`), the reference result the chain
round-trip is compared against. -/
def applyTexts (text : List Nat) : List (List Nat) → Except String (List Nat)
  | [] => .ok text
  | d :: ds =>
    match applyDelta text d with
    | .error e => .error e
    | .ok text1 => applyTexts text1 ds

/-- One `EncryptDelta` call of a chain production: its delta text, the
epoch and epoch secret passed, the sequence number, the author with
their signing key, and the nonce entropy. -/
structure DeltaCall where
  text : List Nat
  epoch : Nat
  secret : List Nat
  seq : Nat
  author : List Nat
  privKey : List Nat
  ivR : List Nat
deriving Repr

/-- `EncryptBaseBlock` followed by one `EncryptDelta` per call, each
appending to the previous chain. -/
def buildChain (filePath : List Nat) : List Nat → List DeltaCall → List Nat
  | prev, [] => prev
  | prev, c :: rest =>
    buildChain filePath
      (encryptDelta c.text c.secret filePath c.epoch c.seq c.author c.privKey prev c.ivR)
      rest

end Mlsgit

namespace Mlsgit

/-! ## Chain splitting lemmas -/

theorem deltaSep_head : deltaSep = 10 :: strBytes "---MLSGIT-DELTA---\n" := by decide

theorem recordToB64_no_newline (r : DeltaRecord) : (10 : Nat) ∉ recordToB64 r := by
  rw [recordToB64]
  intro hmem
  rw [List.mem_map] at hmem
  obtain ⟨a, _, ha⟩ := hmem
  exact avoid10_ne_ten a ha

theorem set_no_newline {b : List Nat} {p v : Nat} (hb : (10 : Nat) ∉ b) (hv : v ≠ 10) :
    (10 : Nat) ∉ b.set p v := by
  intro hmem
  rcases List.mem_or_eq_of_mem_set hmem with h | h
  · exact hb h
  · exact hv h.symm

theorem splitSepGo_nil (fuel : Nat) (acc : List Nat) : splitSepGo fuel acc [] = [acc] := by
  match fuel with
  | 0 => simp [splitSepGo]
  | fuel + 1 =>
    rw [splitSepGo]
    rw [if_neg (by rw [deltaSep_head]; simp [hasPref])]

theorem splitSepGo_block : ∀ (b : List Nat) (fuel : Nat) (acc s : List Nat),
    (10 : Nat) ∉ b →
    splitSepGo (b.length + fuel) acc (b ++ s) = splitSepGo fuel (acc ++ b) s
  | [], fuel, acc, s, _ => by simp
  | c :: t, fuel, acc, s, hb => by
    have hc : c ≠ 10 := fun h => hb (h ▸ List.mem_cons_self c t)
    rw [List.length_cons, List.cons_append]
    rw [show t.length + 1 + fuel = (t.length + fuel) + 1 by omega]
    rw [splitSepGo]
    rw [if_neg (by rw [deltaSep_head]; exact by simp [hasPref_head_ne (fun h => hc h.symm)])]
    rw [splitSepGo_block t fuel (acc ++ [c]) s (fun h => hb (List.mem_cons_of_mem c h))]
    rw [List.append_assoc]
    rfl

theorem splitSepGo_sep (fuel : Nat) (acc s : List Nat) :
    splitSepGo (fuel + 1) acc (deltaSep ++ s) = acc :: splitSepGo fuel [] s := by
  simp only [splitSepGo]
  rw [if_pos (hasPref_append_self deltaSep s)]
  rw [List.drop_left]

/-- The chain bytes after the base block: each further block preceded
by the separator. -/
def flatTail : List (List Nat) → List Nat
  | [] => []
  | b :: bs => deltaSep ++ b ++ flatTail bs

/-- `prev ++ sep ++ b₁ ++ sep ++ b₂ ++ …`: the accumulator shape of a
chain under construction. -/
def appendBlocks (pc : List Nat) (bs : List (List Nat)) : List Nat :=
  bs.foldl (fun a b => a ++ deltaSep ++ b) pc

theorem appendBlocks_nil (pc : List Nat) : appendBlocks pc [] = pc := rfl

theorem appendBlocks_cons (pc b : List Nat) (bs : List (List Nat)) :
    appendBlocks pc (b :: bs) = appendBlocks (pc ++ deltaSep ++ b) bs := rfl

theorem appendBlocks_eq_flatTail : ∀ (bs : List (List Nat)) (pc : List Nat),
    appendBlocks pc bs = pc ++ flatTail bs
  | [], pc => by simp [appendBlocks_nil, flatTail]
  | b :: bs, pc => by
    rw [appendBlocks_cons, appendBlocks_eq_flatTail bs, flatTail]
    simp [List.append_assoc]

theorem splitSepGo_main : ∀ (bs : List (List Nat)) (b acc : List Nat) (extra : Nat),
    (10 : Nat) ∉ b → (∀ x ∈ bs, (10 : Nat) ∉ x) →
    splitSepGo ((b ++ flatTail bs).length + extra) acc (b ++ flatTail bs)
      = (acc ++ b) :: bs
  | [], b, acc, extra, hb, _ => by
    rw [flatTail, List.append_nil]
    have h1 := splitSepGo_block b extra acc [] hb
    rw [List.append_nil] at h1
    rw [h1, splitSepGo_nil]
  | x :: xs, b, acc, extra, hb, hbs => by
    have hx : (10 : Nat) ∉ x := hbs x (List.mem_cons_self x xs)
    have hxs : ∀ y ∈ xs, (10 : Nat) ∉ y := fun y hy => hbs y (List.mem_cons_of_mem x hy)
    rw [flatTail]
    have h1 := splitSepGo_block b ((deltaSep ++ x ++ flatTail xs).length + extra) acc
      (deltaSep ++ x ++ flatTail xs) hb
    rw [show (b ++ (deltaSep ++ x ++ flatTail xs)).length + extra
        = b.length + ((deltaSep ++ x ++ flatTail xs).length + extra) by
      simp
      omega]
    rw [h1]
    have hsep : deltaSep.length = 20 := by decide
    rw [show (deltaSep ++ x ++ flatTail xs).length + extra
        = ((x ++ flatTail xs).length + (19 + extra)) + 1 by
      simp [hsep]
      omega]
    rw [List.append_assoc deltaSep x (flatTail xs)]
    rw [splitSepGo_sep]
    rw [splitSepGo_main xs x [] (19 + extra) hx hxs]
    simp

/-- Splitting a chain of newline-free blocks recovers the blocks. -/
theorem splitSep_appendBlocks (b : List Nat) (bs : List (List Nat))
    (hb : (10 : Nat) ∉ b) (hbs : ∀ x ∈ bs, (10 : Nat) ∉ x) :
    splitSep (appendBlocks b bs) = b :: bs := by
  rw [splitSep, appendBlocks_eq_flatTail]
  have h := splitSepGo_main bs b [] 0 hb hbs
  rw [Nat.add_zero] at h
  rw [h]
  simp

end Mlsgit

namespace Mlsgit

/-! ## `processRest` composition and inversion -/

/-- One iteration of the delta loop (the body of
`for i := 1; i < len(blocks)` in `DecryptChain`), as a function: all
checks on a single block, returning the updated running plaintext and
accumulated previous content. -/
def processOne (getEpochSecret : Nat → Option (List Nat)) (filePath : List Nat)
    (getPublicKey : List Nat → Option (List Nat)) (prevContent text b : List Nat) :
    Except DecErr (List Nat × List Nat) :=
  match recordFromB64 b with
  | none => .error .parseRecord
  | some record =>
    if record.prevHash ≠ hashPrefix prevContent then .error .chainBroken
    else
      match getEpochSecret record.epoch with
      | none => .error .epochSecretLookup
      | some secret =>
        let deltaPath := if record.filePath = [] then filePath else record.filePath
        let key := deriveFileKey secret deltaPath record.epoch
        match getPublicKey record.author with
        | none => .error .keyLookup
        | some pub =>
          if verifyIdeal pub (record.iv ++ record.ct) record.sig = false then
            .error .sigInvalid
          else
            match aesgcmDec key record.iv record.ct with
            | none => .error .aeadFailure
            | some deltaBytes =>
              match applyDelta text deltaBytes with
              | .error _ => .error .patchFailed
              | .ok text1 => .ok (text1, prevContent ++ deltaSep ++ b)

theorem processRest_cons (E : Nat → Option (List Nat)) (fp : List Nat)
    (P : List Nat → Option (List Nat)) (pc t b : List Nat) (bs : List (List Nat)) :
    processRest E fp P pc t (b :: bs)
      = match processOne E fp P pc t b with
        | .error e => .error e
        | .ok (t1, pc1) => processRest E fp P pc1 t1 bs := by
  simp only [processRest, processOne]
  cases hrec : recordFromB64 b with
  | none => rfl
  | some record =>
    simp only []
    by_cases hhash : record.prevHash ≠ hashPrefix pc
    · rw [if_pos hhash, if_pos hhash]
    · rw [if_neg hhash, if_neg hhash]
      cases hE : E record.epoch with
      | none => rfl
      | some secret =>
        simp only []
        cases hP : P record.author with
        | none => rfl
        | some pub =>
          simp only []
          by_cases hver : verifyIdeal pub (record.iv ++ record.ct) record.sig = false
          · rw [if_pos hver, if_pos hver]
          · rw [if_neg hver, if_neg hver]
            cases hdec : aesgcmDec
                (deriveFileKey secret (if record.filePath = [] then fp else record.filePath)
                  record.epoch) record.iv record.ct with
            | none => rfl
            | some deltaBytes =>
              simp only []
              cases happ : applyDelta t deltaBytes with
              | error e => rfl
              | ok text1 => rfl

theorem processRest_append (E : Nat → Option (List Nat)) (fp : List Nat)
    (P : List Nat → Option (List Nat)) :
    ∀ (bs1 : List (List Nat)) (bs2 : List (List Nat)) (pc t : List Nat),
    processRest E fp P pc t (bs1 ++ bs2)
      = match processRest E fp P pc t bs1 with
        | .error e => .error e
        | .ok (t1, pc1) => processRest E fp P pc1 t1 bs2
  | [], bs2, pc, t => rfl
  | b :: bs1, bs2, pc, t => by
    rw [List.cons_append, processRest_cons, processRest_cons]
    cases processOne E fp P pc t b with
    | error e => rfl
    | ok r => exact processRest_append E fp P bs1 bs2 r.2 r.1

/-- Success of the loop determines the accumulated previous content. -/
theorem processRest_ok_pc (E : Nat → Option (List Nat)) (fp : List Nat)
    (P : List Nat → Option (List Nat)) :
    ∀ (bs : List (List Nat)) (pc t t1 pc1 : List Nat),
    processRest E fp P pc t bs = .ok (t1, pc1) → pc1 = appendBlocks pc bs
  | [], pc, t, t1, pc1, h => by
    simp only [processRest] at h
    cases h
    rfl
  | b :: bs, pc, t, t1, pc1, h => by
    rw [processRest_cons] at h
    cases hone : processOne E fp P pc t b with
    | error e => rw [hone] at h; cases h
    | ok r =>
      rw [hone] at h
      have hpc : r.2 = pc ++ deltaSep ++ b := by
        simp only [processOne] at hone
        cases hrec : recordFromB64 b with
        | none => rw [hrec] at hone; cases hone
        | some record =>
          rw [hrec] at hone
          simp only [] at hone
          by_cases hhash : record.prevHash ≠ hashPrefix pc
          · rw [if_pos hhash] at hone; cases hone
          · rw [if_neg hhash] at hone
            cases hE : E record.epoch with
            | none => rw [hE] at hone; cases hone
            | some secret =>
              rw [hE] at hone
              simp only [] at hone
              cases hP : P record.author with
              | none => rw [hP] at hone; cases hone
              | some pub =>
                rw [hP] at hone
                simp only [] at hone
                by_cases hver : verifyIdeal pub (record.iv ++ record.ct) record.sig = false
                · rw [if_pos hver] at hone; cases hone
                · rw [if_neg hver] at hone
                  cases hdec : aesgcmDec
                      (deriveFileKey secret
                        (if record.filePath = [] then fp else record.filePath)
                        record.epoch) record.iv record.ct with
                  | none => rw [hdec] at hone; cases hone
                  | some deltaBytes =>
                    rw [hdec] at hone
                    simp only [] at hone
                    cases happ : applyDelta t deltaBytes with
                    | error e => rw [happ] at hone; cases hone
                    | ok text1 =>
                      rw [happ] at hone
                      cases hone
                      rfl
      have := processRest_ok_pc E fp P bs r.2 r.1 t1 pc1 h
      rw [this, hpc, appendBlocks_cons]

/-- Inversion of a successful loop step: the block parses, its
`prev_hash` matches the accumulated content, and the loop continues. -/
theorem processRest_ok_cons (E : Nat → Option (List Nat)) (fp : List Nat)
    (P : List Nat → Option (List Nat)) (pc t b : List Nat) (bs : List (List Nat))
    (r : List Nat × List Nat)
    (h : processRest E fp P pc t (b :: bs) = .ok r) :
    ∃ record t1, recordFromB64 b = some record ∧
      record.prevHash = hashPrefix pc ∧
      processRest E fp P (pc ++ deltaSep ++ b) t1 bs = .ok r := by
  rw [processRest_cons] at h
  cases hone : processOne E fp P pc t b with
  | error e => rw [hone] at h; cases h
  | ok r1 =>
    rw [hone] at h
    simp only [processOne] at hone
    cases hrec : recordFromB64 b with
    | none => rw [hrec] at hone; cases hone
    | some record =>
      rw [hrec] at hone
      simp only [] at hone
      by_cases hhash : record.prevHash ≠ hashPrefix pc
      · rw [if_pos hhash] at hone; cases hone
      · rw [if_neg hhash] at hone
        refine ⟨record, r1.1, rfl, by simpa using hhash, ?_⟩
        have hpc1 : r1.2 = pc ++ deltaSep ++ b := by
          cases hE : E record.epoch with
          | none => rw [hE] at hone; cases hone
          | some secret =>
            rw [hE] at hone
            simp only [] at hone
            cases hP : P record.author with
            | none => rw [hP] at hone; cases hone
            | some pub =>
              rw [hP] at hone
              simp only [] at hone
              by_cases hver : verifyIdeal pub (record.iv ++ record.ct) record.sig = false
              · rw [if_pos hver] at hone; cases hone
              · rw [if_neg hver] at hone
                cases hdec : aesgcmDec
                    (deriveFileKey secret
                      (if record.filePath = [] then fp else record.filePath)
                      record.epoch) record.iv record.ct with
                | none => rw [hdec] at hone; cases hone
                | some deltaBytes =>
                  rw [hdec] at hone
                  simp only [] at hone
                  cases happ : applyDelta t deltaBytes with
                  | error e => rw [happ] at hone; cases hone
                  | ok text1 =>
                    rw [happ] at hone
                    simp only [] at hone
                    cases hone
                    rfl
        rw [← hpc1]
        exact h

end Mlsgit

namespace Mlsgit

/-! ## Chain production and the round-trip -/

/-- The record one `EncryptDelta` call appends, given the chain built
so far. -/
def deltaRecOf (fp prev : List Nat) (c : DeltaCall) : DeltaRecord :=
  let key := deriveFileKey c.secret fp c.epoch
  let iv := mkNonce c.ivR
  let ct := aesgcmEnc key iv c.text
  ⟨c.epoch, c.seq, iv, ct, signIdeal c.privKey (iv ++ ct), c.author, hashPrefix prev, fp⟩

/-- The wire blocks a sequence of `EncryptDelta` calls appends after
`prev`. -/
def blocksFrom (fp : List Nat) : List Nat → List DeltaCall → List (List Nat)
  | _, [] => []
  | prev, c :: rest =>
    let b := recordToB64 (deltaRecOf fp prev c)
    b :: blocksFrom fp (prev ++ deltaSep ++ b) rest

theorem encryptDelta_eq (c : DeltaCall) (fp prev : List Nat) :
    encryptDelta c.text c.secret fp c.epoch c.seq c.author c.privKey prev c.ivR
      = prev ++ deltaSep ++ recordToB64 (deltaRecOf fp prev c) := by
  rfl

theorem buildChain_eq_appendBlocks (fp : List Nat) :
    ∀ (calls : List DeltaCall) (prev : List Nat),
    buildChain fp prev calls = appendBlocks prev (blocksFrom fp prev calls)
  | [], prev => rfl
  | c :: rest, prev => by
    rw [buildChain, blocksFrom]
    rw [encryptDelta_eq, appendBlocks_cons]
    exact buildChain_eq_appendBlocks fp rest _

theorem blocksFrom_no_newline (fp : List Nat) :
    ∀ (calls : List DeltaCall) (prev : List Nat) (x : List Nat),
    x ∈ blocksFrom fp prev calls → (10 : Nat) ∉ x
  | [], _, x, hx => by simp [blocksFrom] at hx
  | c :: rest, prev, x, hx => by
    rw [blocksFrom] at hx
    rcases List.mem_cons.mp hx with rfl | hx
    · exact recordToB64_no_newline _
    · exact blocksFrom_no_newline fp rest _ x hx

/-- The delta loop succeeds on the blocks a call sequence produces,
yielding the sequential application of the delta texts. -/
theorem processRest_blocksFrom (E : Nat → Option (List Nat)) (fp : List Nat)
    (P : List Nat → Option (List Nat)) :
    ∀ (calls : List DeltaCall) (prev text final : List Nat),
    (∀ c ∈ calls, E c.epoch = some c.secret) →
    (∀ c ∈ calls, P c.author = some (sigPubOf c.privKey)) →
    applyTexts text (calls.map (fun c => c.text)) = .ok final →
    processRest E fp P prev text (blocksFrom fp prev calls)
      = .ok (final, appendBlocks prev (blocksFrom fp prev calls))
  | [], prev, text, final, _, _, happ => by
    simp only [List.map_nil, applyTexts] at happ
    cases happ
    rfl
  | c :: rest, prev, text, final, hE, hP, happ => by
    simp only [List.map_cons, applyTexts] at happ
    cases happl : applyDelta text c.text with
    | error e => rw [happl] at happ; cases happ
    | ok text1 =>
      rw [happl] at happ
      simp only [] at happ
      rw [blocksFrom]
      rw [processRest_cons]
      have hone : processOne E fp P prev text (recordToB64 (deltaRecOf fp prev c))
          = .ok (text1, prev ++ deltaSep ++ recordToB64 (deltaRecOf fp prev c)) := by
        unfold processOne
        rw [recordFromB64_toB64]
        simp only [deltaRecOf]
        rw [if_neg (by simp)]
        rw [hE c (List.mem_cons_self c rest)]
        simp only []
        rw [hP c (List.mem_cons_self c rest)]
        simp only []
        rw [if_neg (by rw [verify_sign]; simp)]
        rw [show (if fp = [] then fp else fp) = fp by split <;> rfl]
        rw [aesgcmDec_enc]
        simp only []
        rw [happl]
      rw [hone]
      simp only []
      rw [appendBlocks_cons]
      exact processRest_blocksFrom E fp P rest _ text1 final
        (fun x hx => hE x (List.mem_cons_of_mem c hx))
        (fun x hx => hP x (List.mem_cons_of_mem c hx)) happ

end Mlsgit

namespace Mlsgit

theorem set_ne_self (l : List Nat) (p v : Nat) (hp : p < l.length)
    (hv : v ≠ l.getD p 0) : l.set p v ≠ l := by
  intro hcontra
  apply hv
  have h1 : (l.set p v).getD p 0 = v := by
    rw [List.getD_eq_getElem _ 0 (by simpa)]
    exact List.getElem_set_self (by simpa)
  rw [hcontra] at h1
  exact h1.symm

/-- The record `EncryptBaseBlock` emits. -/
def baseRecOf (m0 s0 fp : List Nat) (e0 : Nat) (a0 k0 iv0 : List Nat) : DeltaRecord :=
  let key := deriveFileKey s0 fp e0
  let iv := mkNonce iv0
  let ct := aesgcmEnc key iv m0
  ⟨e0, 0, iv, ct, signIdeal k0 (iv ++ ct), a0, [], fp⟩

theorem encryptBaseBlock_eq (m0 s0 fp : List Nat) (e0 : Nat) (a0 k0 iv0 : List Nat) :
    encryptBaseBlock m0 s0 fp e0 a0 k0 iv0 = recordToB64 (baseRecOf m0 s0 fp e0 a0 k0 iv0) :=
  rfl

/-- Forward evaluation of `DecryptChain` on any chain whose first
block is a produced base block: the base processing succeeds and
reduces the call to the delta loop started at the base plaintext. -/
theorem decryptChain_of_split_base (m0 s0 fp : List Nat) (e0 : Nat)
    (a0 k0 iv0 : List Nat) (E : Nat → Option (List Nat)) (P : List Nat → Option (List Nat))
    (hE0 : E e0 = some s0) (hP0 : P a0 = some (sigPubOf k0))
    (ct : List Nat) (rest : List (List Nat))
    (hsplit : splitSep ct = recordToB64 (baseRecOf m0 s0 fp e0 a0 k0 iv0) :: rest) :
    decryptChain ct E fp P
      = match processRest E fp P (recordToB64 (baseRecOf m0 s0 fp e0 a0 k0 iv0)) m0 rest with
        | .error e => .error e
        | .ok (text, _) => .ok text := by
  unfold decryptChain
  rw [hsplit]
  simp only []
  rw [recordFromB64_toB64]
  simp only [baseRecOf]
  rw [hE0]
  simp only []
  rw [hP0]
  simp only []
  rw [if_neg (by rw [verify_sign]; simp)]
  rw [show ((if fp = [] then fp else fp) : List Nat) = fp by split <;> rfl]
  rw [aesgcmDec_enc]

/-- The blocks of the produced chain: the base block followed by the
delta blocks. -/
def chainBlocks (m0 s0 fp : List Nat) (e0 : Nat) (a0 k0 iv0 : List Nat)
    (calls : List DeltaCall) : List (List Nat) :=
  encryptBaseBlock m0 s0 fp e0 a0 k0 iv0 ::
    blocksFrom fp (encryptBaseBlock m0 s0 fp e0 a0 k0 iv0) calls

/-- Reassemble a block list into the chain string. -/
def joinBlocks : List (List Nat) → List Nat
  | [] => []
  | b :: bs => appendBlocks b bs

theorem joinBlocks_chainBlocks (m0 s0 fp : List Nat) (e0 : Nat)
    (a0 k0 iv0 : List Nat) (calls : List DeltaCall) :
    joinBlocks (chainBlocks m0 s0 fp e0 a0 k0 iv0 calls)
      = buildChain fp (encryptBaseBlock m0 s0 fp e0 a0 k0 iv0) calls := by
  rw [chainBlocks, joinBlocks, buildChain_eq_appendBlocks]

end Mlsgit

namespace Mlsgit

/-- Inversion of a successful `DecryptChain`: the chain splits into a
base block and a delta-block list on which the loop succeeds. -/
theorem decryptChain_ok_split (ct : List Nat) (E : Nat → Option (List Nat))
    (fp : List Nat) (P : List Nat → Option (List Nat)) (r : List Nat)
    (h : decryptChain ct E fp P = .ok r) (b0 : List Nat) (rest : List (List Nat))
    (hsplit : splitSep ct = b0 :: rest) :
    ∃ t0 pcf, processRest E fp P b0 t0 rest = .ok (r, pcf) := by
  unfold decryptChain at h
  rw [hsplit] at h
  simp only [] at h
  cases hrec : recordFromB64 b0 with
  | none => rw [hrec] at h; cases h
  | some record =>
    rw [hrec] at h
    simp only [] at h
    cases hE : E record.epoch with
    | none => rw [hE] at h; cases h
    | some secret =>
      rw [hE] at h
      simp only [] at h
      cases hP : P record.author with
      | none => rw [hP] at h; cases h
      | some pub =>
        rw [hP] at h
        simp only [] at h
        by_cases hver : verifyIdeal pub (record.iv ++ record.ct) record.sig = false
        · rw [if_pos hver] at h; cases h
        · rw [if_neg hver] at h
          cases hdec : aesgcmDec
              (deriveFileKey secret (if record.filePath = [] then fp else record.filePath)
                record.epoch) record.iv record.ct with
          | none => rw [hdec] at h; cases h
          | some plaintext =>
            rw [hdec] at h
            simp only [] at h
            cases hloop : processRest E fp P b0 plaintext rest with
            | error e => rw [hloop] at h; cases h
            | ok rr =>
              rw [hloop] at h
              simp only [] at h
              cases h
              exact ⟨plaintext, rr.2, by rw [hloop]⟩

end Mlsgit

namespace Mlsgit

/-- **C4 (amended).** For any chain produced by `EncryptBaseBlock`
followed by `k` `EncryptDelta` calls (each appending to the previous
chain), `DecryptChain` — given callbacks returning the matching epoch
secrets and author public keys — round-trips to the result of applying
the `k` delta texts in order to the base plaintext.  Moreover,
tampering with any byte of any record other than the chain's final
record (changing it to any different value other than the newline byte
10, which the base64 wire alphabet excludes) causes `DecryptChain` to
fail.  (The original claim also promised a failure — specifically an
AEAD or chain-hash failure — for the final record; the counterexample
`decryptChain_final_record_tamper_ok` shows a byte of the final
record, in its `seq` field, whose alteration leaves decryption
succeeding with the original plaintext, and a non-final tamper can
also surface as a record-parse or signature failure rather than an
AEAD or chain-hash one.) -/
theorem chain_roundtrip_and_nonfinal_tamper
    (m0 s0 fp : List Nat) (e0 : Nat) (a0 k0 iv0 : List Nat) (calls : List DeltaCall)
    (E : Nat → Option (List Nat)) (P : List Nat → Option (List Nat))
    (hE0 : E e0 = some s0) (hP0 : P a0 = some (sigPubOf k0))
    (hE : ∀ c ∈ calls, E c.epoch = some c.secret)
    (hP : ∀ c ∈ calls, P c.author = some (sigPubOf c.privKey))
    (final : List Nat)
    (happ : applyTexts m0 (calls.map (fun c => c.text)) = .ok final) :
    decryptChain (buildChain fp (encryptBaseBlock m0 s0 fp e0 a0 k0 iv0) calls) E fp P
      = .ok final ∧
    ∀ j p v,
      j + 1 < (chainBlocks m0 s0 fp e0 a0 k0 iv0 calls).length →
      p < ((chainBlocks m0 s0 fp e0 a0 k0 iv0 calls).getD j []).length →
      v ≠ ((chainBlocks m0 s0 fp e0 a0 k0 iv0 calls).getD j []).getD p 0 →
      v ≠ 10 →
      ∃ err, decryptChain
        (joinBlocks ((chainBlocks m0 s0 fp e0 a0 k0 iv0 calls).set j
          (((chainBlocks m0 s0 fp e0 a0 k0 iv0 calls).getD j []).set p v))) E fp P
        = .error err := by
  have hb0nl : (10 : Nat) ∉ encryptBaseBlock m0 s0 fp e0 a0 k0 iv0 := by
    rw [encryptBaseBlock_eq]
    exact recordToB64_no_newline _
  have hbsnl := blocksFrom_no_newline fp calls (encryptBaseBlock m0 s0 fp e0 a0 k0 iv0)
  have hloopO : processRest E fp P (encryptBaseBlock m0 s0 fp e0 a0 k0 iv0) m0
      (blocksFrom fp (encryptBaseBlock m0 s0 fp e0 a0 k0 iv0) calls)
      = .ok (final, appendBlocks (encryptBaseBlock m0 s0 fp e0 a0 k0 iv0)
          (blocksFrom fp (encryptBaseBlock m0 s0 fp e0 a0 k0 iv0) calls)) :=
    processRest_blocksFrom E fp P calls _ m0 final hE hP happ
  set b0 := encryptBaseBlock m0 s0 fp e0 a0 k0 iv0 with hb0
  set bs := blocksFrom fp b0 calls with hbs
  have hsplitO : splitSep (appendBlocks b0 bs) = b0 :: bs :=
    splitSep_appendBlocks b0 bs hb0nl (fun x hx => hbsnl x hx)
  constructor
  · rw [buildChain_eq_appendBlocks]
    rw [decryptChain_of_split_base m0 s0 fp e0 a0 k0 iv0 E P hE0 hP0 _ bs
      (by rw [hsplitO, hb0, encryptBaseBlock_eq])]
    rw [show recordToB64 (baseRecOf m0 s0 fp e0 a0 k0 iv0) = b0 from
      (encryptBaseBlock_eq m0 s0 fp e0 a0 k0 iv0).symm]
    rw [hloopO]
  · intro j p v hj hp hv hv10
    rw [chainBlocks] at hj hp hv ⊢
    rw [← hb0, ← hbs] at hj hp hv ⊢
    simp only [List.length_cons] at hj
    match j, hj with
    | 0, hj =>
      rw [List.getD_cons_zero] at hp hv
      rw [List.getD_cons_zero, List.set_cons_zero, joinBlocks]
      have hbs_ne : bs ≠ [] := by
        intro hnil
        rw [hnil] at hj
        simp at hj
      have hb0nl' : (10 : Nat) ∉ b0.set p v := set_no_newline hb0nl hv10
      have hsplitT : splitSep (appendBlocks (b0.set p v) bs) = (b0.set p v) :: bs :=
        splitSep_appendBlocks _ bs hb0nl' (fun x hx => hbsnl x hx)
      cases hres : decryptChain (appendBlocks (b0.set p v) bs) E fp P with
      | error e => exact ⟨e, rfl⟩
      | ok r =>
        exfalso
        obtain ⟨t0, pcf, hloopT⟩ :=
          decryptChain_ok_split _ E fp P r hres (b0.set p v) bs hsplitT
        match bs, hbs_ne, hloopO, hloopT with
        | b1 :: bs1, _, hloopO, hloopT =>
          obtain ⟨rec, t1, hdec1, hhash1, _⟩ :=
            processRest_ok_cons E fp P (b0.set p v) t0 b1 bs1 _ hloopT
          obtain ⟨rec', t1', hdec1', hhash1', _⟩ :=
            processRest_ok_cons E fp P b0 m0 b1 bs1 _ hloopO
          have hrec_eq : rec = rec' := by
            rw [hdec1] at hdec1'
            exact Option.some.inj hdec1'.symm ▸ (Option.some.inj hdec1').symm
          rw [hrec_eq, hhash1'] at hhash1
          have := hashIdeal_inj hhash1.symm
          exact set_ne_self b0 p v hp hv this
    | i + 1, hj =>
      have hi1 : i + 1 < bs.length := by omega
      have hi : i < bs.length := by omega
      rw [List.getD_cons_succ] at hp hv
      rw [List.getD_cons_succ, List.set_cons_succ, joinBlocks]
      have hgetD : bs.getD i [] = bs[i] := List.getD_eq_getElem bs [] hi
      rw [hgetD] at hp hv ⊢
      have hbnl' : ∀ x ∈ bs.set i (bs[i].set p v), (10 : Nat) ∉ x := by
        intro x hx
        rcases List.mem_or_eq_of_mem_set hx with hx | hx
        · exact hbsnl x hx
        · rw [hx]
          exact set_no_newline (hbsnl _ (List.getElem_mem hi)) hv10
      have hsplitT : splitSep (appendBlocks b0 (bs.set i (bs[i].set p v)))
          = b0 :: bs.set i (bs[i].set p v) :=
        splitSep_appendBlocks b0 _ hb0nl hbnl'
      rw [decryptChain_of_split_base m0 s0 fp e0 a0 k0 iv0 E P hE0 hP0 _ _
        (by rw [hsplitT, hb0, encryptBaseBlock_eq])]
      rw [show recordToB64 (baseRecOf m0 s0 fp e0 a0 k0 iv0) = b0 from
        (encryptBaseBlock_eq m0 s0 fp e0 a0 k0 iv0).symm]
      cases hloopT : processRest E fp P b0 m0 (bs.set i (bs[i].set p v)) with
      | error e => exact ⟨e, rfl⟩
      | ok rr =>
        exfalso
        have hsetdecomp : bs.set i (bs[i].set p v)
            = bs.take i ++ (bs[i].set p v) :: bs.drop (i + 1) :=
          List.set_eq_take_cons_drop _ hi
        have horigdecomp : bs = bs.take i ++ bs[i] :: bs.drop (i + 1) := by
          conv_lhs => rw [← List.take_append_drop i bs]
          rw [List.drop_eq_getElem_cons hi]
        have hdropdecomp : bs.drop (i + 1) = bs[i + 1] :: bs.drop (i + 2) := by
          rw [List.drop_eq_getElem_cons hi1]
        rw [hsetdecomp, processRest_append] at hloopT
        rw [horigdecomp, processRest_append] at hloopO
        cases hpre : processRest E fp P b0 m0 (bs.take i) with
        | error e => rw [hpre] at hloopO; cases hloopO
        | ok q =>
          rw [hpre] at hloopO hloopT
          simp only [] at hloopO hloopT
          rw [hdropdecomp] at hloopO hloopT
          obtain ⟨recT, tT, _, _, hcontT⟩ :=
            processRest_ok_cons E fp P q.2 q.1 (bs[i].set p v)
              (bs[i + 1] :: bs.drop (i + 2)) rr hloopT
          obtain ⟨recB, tB, hdecB, hhashB, _⟩ :=
            processRest_ok_cons E fp P (q.2 ++ deltaSep ++ bs[i].set p v) tT
              (bs[i + 1]) (bs.drop (i + 2)) rr hcontT
          obtain ⟨recO, tO, _, _, hcontO⟩ :=
            processRest_ok_cons E fp P q.2 q.1 (bs[i])
              (bs[i + 1] :: bs.drop (i + 2)) _ hloopO
          obtain ⟨recB', tB', hdecB', hhashB', _⟩ :=
            processRest_ok_cons E fp P (q.2 ++ deltaSep ++ bs[i]) tO
              (bs[i + 1]) (bs.drop (i + 2)) _ hcontO
          have hrecBeq : recB = recB' := by
            rw [hdecB] at hdecB'
            exact Option.some.inj hdecB'.symm ▸ (Option.some.inj hdecB').symm
          rw [hrecBeq, hhashB'] at hhashB
          have hpceq := hashIdeal_inj hhashB.symm
          have hbeq : bs[i].set p v = bs[i] := List.append_cancel_left hpceq
          exact set_ne_self (bs[i]) p v hp hv hbeq
end Mlsgit

namespace Mlsgit

set_option maxRecDepth 100000

/-- Counterexample to C4 as stated: in a produced single-record chain,
changing the byte of the record that encodes its `seq` field leaves
`DecryptChain` succeeding with the original plaintext — no AEAD
failure and no chain-hash failure (no failure at all): `DecryptChain`
never reads `seq`. -/
theorem decryptChain_final_record_tamper_ok :
    (encryptBaseBlock [104, 105] [7] [97] 0 [98] [3] [9]).set 1 5
        ≠ encryptBaseBlock [104, 105] [7] [97] 0 [98] [3] [9] ∧
    decryptChain ((encryptBaseBlock [104, 105] [7] [97] 0 [98] [3] [9]).set 1 5)
        (fun e => if e = 0 then some [7] else none) [97]
        (fun a => if a = [98] then some (sigPubOf [3]) else none)
      = .ok [104, 105] ∧
    ¬(decryptChain ((encryptBaseBlock [104, 105] [7] [97] 0 [98] [3] [9]).set 1 5)
          (fun e => if e = 0 then some [7] else none) [97]
          (fun a => if a = [98] then some (sigPubOf [3]) else none)
        = .error .aeadFailure ∨
      decryptChain ((encryptBaseBlock [104, 105] [7] [97] 0 [98] [3] [9]).set 1 5)
          (fun e => if e = 0 then some [7] else none) [97]
          (fun a => if a = [98] then some (sigPubOf [3]) else none)
        = .error .chainBroken) := by
  have hok : decryptChain ((encryptBaseBlock [104, 105] [7] [97] 0 [98] [3] [9]).set 1 5)
      (fun e => if e = 0 then some [7] else none) [97]
      (fun a => if a = [98] then some (sigPubOf [3]) else none) = .ok [104, 105] := by rfl
  refine ⟨by decide, hok, ?_⟩
  rw [hok]
  rintro (h | h) <;> cases h

/-- Witness for `chain_roundtrip_and_nonfinal_tamper`: a two-record
chain (base plus one delta), its round-trip, and a detected tamper of
the base record's first byte. -/
theorem chain_roundtrip_and_nonfinal_tamper_witness :
    (decryptChain
        (buildChain [97] (encryptBaseBlock [104, 105] [7] [97] 0 [98] [3] [9])
          [⟨computeDelta [104, 105] [104, 106], 0, [7], 1, [98], [3], [11]⟩])
        (fun e => if e = 0 then some [7] else none) [97]
        (fun a => if a = [98] then some (sigPubOf [3]) else none)
      = .ok [104, 106]) ∧
    (∃ err, decryptChain
        (joinBlocks ((chainBlocks [104, 105] [7] [97] 0 [98] [3] [9]
            [⟨computeDelta [104, 105] [104, 106], 0, [7], 1, [98], [3], [11]⟩]).set 0
          (((chainBlocks [104, 105] [7] [97] 0 [98] [3] [9]
            [⟨computeDelta [104, 105] [104, 106], 0, [7], 1, [98], [3], [11]⟩]).getD 0 []).set 0 1)))
        (fun e => if e = 0 then some [7] else none) [97]
        (fun a => if a = [98] then some (sigPubOf [3]) else none)
      = .error err) := by
  have h := chain_roundtrip_and_nonfinal_tamper [104, 105] [7] [97] 0 [98] [3] [9]
    [⟨computeDelta [104, 105] [104, 106], 0, [7], 1, [98], [3], [11]⟩]
    (fun e => if e = 0 then some [7] else none)
    (fun a => if a = [98] then some (sigPubOf [3]) else none)
    (by rfl) (by rfl)
    (by intro c hc; simp at hc; rw [hc]; rfl)
    (by intro c hc; simp at hc; rw [hc]; rfl)
    [104, 106] (by rfl)
  exact ⟨h.1, h.2 0 0 1 (by decide) (by decide) (by decide) (by decide)⟩

end Mlsgit

namespace Mlsgit

/-! ## Epoch-key archive (`internal/mls/epoch.go`) and the filter state
loader (`internal/filter/filter.go`) -/

/-- `EpochKeyArchive`: epoch secrets keyed by epoch number.  The Go
`map[int][]byte` is modelled as an association list with
insert-overwrite semantics (`Add` prepends; `Get`/`Has` take the most
recent binding). -/
structure EpochKeyArchive where
  keys : List (Nat × List Nat)
deriving DecidableEq, Repr

/-- `Archive.Get`: the secret for an epoch, `none` on the error path. -/
def archiveGet (a : EpochKeyArchive) (epoch : Nat) : Option (List Nat) :=
  (a.keys.find? (fun p => p.1 == epoch)).map (fun p => p.2)

/-- `Archive.Has`. -/
def archiveHas (a : EpochKeyArchive) (epoch : Nat) : Bool :=
  (a.keys.find? (fun p => p.1 == epoch)).isSome

/-- `Archive.Add`: record (or overwrite) the secret for an epoch. -/
def archiveAdd (a : EpochKeyArchive) (epoch : Nat) (secret : List Nat) : EpochKeyArchive :=
  ⟨(epoch, secret) :: a.keys⟩

/-- `NewWithSecret`. -/
def newWithSecret (epoch : Nat) (secret : List Nat) : EpochKeyArchive :=
  archiveAdd ⟨[]⟩ epoch secret

/-- The archive-establishing slice of `LoadState` (lines 73–95 of
`internal/filter/filter.go`), for the runs on which `LoadState`
returns a non-nil `FilterState`: when the archive file is missing
(`loaded = none`) a fresh archive holding the current exported secret
is built; when it decrypts successfully (`loaded = some a`) it is
used; a failed decrypt aborts `LoadState` with an error and is outside
this function.  Afterwards the current epoch's entry is inserted if it
is missing. -/
def loadStateArchive (loaded : Option EpochKeyArchive) (epoch : Nat)
    (exportedSecret : List Nat) : EpochKeyArchive :=
  let archive :=
    match loaded with
    | none => newWithSecret epoch exportedSecret
    | some a => a
  if archiveHas archive epoch then archive else archiveAdd archive epoch exportedSecret

/-- **C10.** After `LoadState` returns a non-nil `FilterState`, the
epoch-key archive holds an entry for the group's current epoch
(`LoadState` inserts the current exported secret when missing), so the
error-discarding `Archive.Get(epoch)` at the top of `Clean` returns a
stored secret — it cannot take the error path, which is the only way
`Clean`'s `epochSecret` could be nil. -/
theorem loadStateArchive_get_isSome (loaded : Option EpochKeyArchive) (epoch : Nat)
    (exportedSecret : List Nat) :
    archiveHas (loadStateArchive loaded epoch exportedSecret) epoch = true ∧
    ∃ s, archiveGet (loadStateArchive loaded epoch exportedSecret) epoch = some s := by
  unfold loadStateArchive
  cases loaded with
  | none =>
    simp only []
    rw [if_pos (by rw [newWithSecret, archiveHas, archiveAdd]; simp [List.find?])]
    rw [newWithSecret, archiveHas, archiveAdd, archiveGet]
    simp [List.find?]
  | some a =>
    simp only []
    by_cases hhas : archiveHas a epoch
    · rw [if_pos hhas]
      refine ⟨hhas, ?_⟩
      rw [archiveHas] at hhas
      rw [archiveGet]
      cases hfind : a.keys.find? (fun p => p.1 == epoch) with
      | none => rw [hfind] at hhas; cases hhas
      | some p => exact ⟨p.2, rfl⟩
    · rw [if_neg hhas]
      rw [archiveHas, archiveGet, archiveAdd]
      simp [List.find?]

/-! ## The clean filter (`internal/filter/filter.go`, `Clean`) -/

/-- `FilterState` (the fields `Clean` reads). -/
structure FilterStateM where
  memberID : List Nat
  sigKey : List Nat
  group : MLSGitGroup
  archive : EpochKeyArchive
  compactionThreshold : Nat
deriving Repr

/-- The filter cache (`storage.FilterCache`): per-path plaintext and
ciphertext entries (`GetPlaintext` returns nil — `none` — on a miss,
`GetCiphertext` returns the found flag). -/
structure FilterCacheM where
  plain : List Nat → Option (List Nat)
  ct : List Nat → Option (List Nat)

/-- `FilterCache.Put`. -/
def cachePut (c : FilterCacheM) (path plaintext ciphertext : List Nat) : FilterCacheM :=
  ⟨fun q => if q = path then some plaintext else c.plain q,
   fun q => if q = path then some ciphertext else c.ct q⟩

/-- Which encryption, if any, a `Clean` call performed. -/
inductive CleanEmit where
  | base
  | delta
deriving DecidableEq, Repr

/-- `Clean`, for the case `LoadState` yields a state (the nil-state
passthrough takes `state = none`): the cache-hit check, the base-block
path on a cache miss, and the delta-vs-compaction decision otherwise.
The AEAD nonce entropy is the `ivR` argument.  Returns the output
bytes, the updated cache, and which block kind was freshly encrypted
(`none` on the pure cache-hit passthrough, which returns before any
encryption and before the cache write). -/
def clean (state : Option FilterStateM) (cache : FilterCacheM)
    (filePath stdinData ivR : List Nat) :
    List Nat × FilterCacheM × Option CleanEmit :=
  match state with
  | none => (stdinData, cache, none)
  | some st =>
    let epoch := st.group.epoch
    let epochSecret := (archiveGet st.archive epoch).getD []
    let cachedPlain := cache.plain filePath
    let cachedCT := cache.ct filePath
    match cachedPlain, cachedCT with
    | some pl, some ctv =>
      if pl = stdinData then (ctv, cache, none)
      else
        let nDeltas := countDeltas ctv
        if st.compactionThreshold ≤ nDeltas then
          let ct := encryptBaseBlock stdinData epochSecret filePath epoch
            st.memberID st.sigKey ivR
          (ct, cachePut cache filePath stdinData ct, some .base)
        else
          let deltaText := computeDelta pl stdinData
          let ct := encryptDelta deltaText epochSecret filePath epoch
            (nDeltas + 1) st.memberID st.sigKey ctv ivR
          (ct, cachePut cache filePath stdinData ct, some .delta)
    | _, _ =>
      let ct := encryptBaseBlock stdinData epochSecret filePath epoch
        st.memberID st.sigKey ivR
      (ct, cachePut cache filePath stdinData ct, some .base)

/-- **C8.** For every file path and input bytes, if the filter cache
holds a plaintext for that path equal to the input and also holds a
ciphertext for that path, `Clean` returns exactly the cached
ciphertext, performs no new encryption (no base or delta block is
emitted), and leaves the cache untouched. -/
theorem clean_cache_hit (st : FilterStateM) (cache : FilterCacheM)
    (filePath stdinData ivR pl ctv : List Nat)
    (hpl : cache.plain filePath = some pl) (heq : pl = stdinData)
    (hct : cache.ct filePath = some ctv) :
    clean (some st) cache filePath stdinData ivR = (ctv, cache, none) := by
  unfold clean
  rw [hpl, hct]
  simp only []
  rw [if_pos heq]

/-- Witness for `clean_cache_hit` at a concrete state and cache. -/
theorem clean_cache_hit_witness :
    (let st : FilterStateM :=
      { memberID := [1], sigKey := [2]
        group := { groupID := [3], epoch := 0, epochSecret := [7]
                   members := [⟨[4], [5], true⟩], ownLeafIndex := 0
                   updateEncaps := [], sigKey := [2], initPriv := [6] }
        archive := newWithSecret 0 [7], compactionThreshold := 50 }
    let cache : FilterCacheM :=
      ⟨fun q => if q = [97] then some [104] else none,
       fun q => if q = [97] then some [42, 43] else none⟩
    clean (some st) cache [97] [104] [9] = ([42, 43], cache, none)) := by
  exact clean_cache_hit _ _ [97] [104] [9] [104] [42, 43] (by decide) (by decide) (by decide)

end Mlsgit

namespace Mlsgit

/-! ## Merkle sealing (`internal/crypto/signing.go`,
`ComputeMerkleRoot`) -/

/-- `FileHash`: a file path paired with its leaf hash. -/
structure FileHash where
  path : List Nat
  hash : List Nat
deriving DecidableEq, Repr

/-- Go string `<` (lexicographic byte comparison, shorter prefix
first), as used by the `sort.Slice` comparator. -/
def pathLt : List Nat → List Nat → Bool
  | [], [] => false
  | [], _ :: _ => true
  | _ :: _, [] => false
  | a :: as, b :: bs => if a < b then true else if b < a then false else pathLt as bs

/-- The weak order induced by the comparator (`¬ (b < a)`), which the
sorted output of `sort.Slice` is nondecreasing for. -/
def pathLe : List Nat → List Nat → Bool
  | [], _ => true
  | _ :: _, [] => false
  | a :: as, b :: bs => if a < b then true else if b < a then false else pathLe as bs

theorem pathLe_eq_not_lt : ∀ a b : List Nat, pathLe a b = !(pathLt b a)
  | [], [] => rfl
  | [], _ :: _ => rfl
  | _ :: _, [] => rfl
  | a :: as, b :: bs => by
    rw [pathLe, pathLt]
    by_cases h1 : a < b
    · rw [if_pos h1, if_neg (show ¬ b < a by omega), if_pos h1]
      rfl
    · by_cases h2 : b < a
      · rw [if_neg h1, if_pos h2, if_pos h2]
        rfl
      · rw [if_neg h1, if_neg h2, if_neg h2, if_neg h1]
        exact pathLe_eq_not_lt as bs

theorem pathLe_trans : ∀ a b c : List Nat,
    pathLe a b = true → pathLe b c = true → pathLe a c = true
  | [], _, _, _, _ => rfl
  | _ :: _, [], _, h, _ => by cases h
  | _ :: _, _ :: _, [], _, h => by cases h
  | a :: as, b :: bs, c :: cs, h1, h2 => by
    rw [pathLe] at h1 h2 ⊢
    by_cases hab : a < b
    · by_cases hbc : b < c
      · rw [if_pos (show a < c by omega)]
      · rw [if_neg hbc] at h2
        by_cases hcb : c < b
        · rw [if_pos hcb] at h2
          cases h2
        · rw [if_pos (show a < c by omega)]
    · rw [if_neg hab] at h1
      by_cases hba : b < a
      · rw [if_pos hba] at h1
        cases h1
      · have habeq : a = b := by omega
        subst habeq
        rw [if_neg hab] at h1
        by_cases hac : a < c
        · rw [if_pos hac]
        · rw [if_neg hac] at h2 ⊢
          by_cases hca : c < a
          · rw [if_pos hca] at h2
            cases h2
          · rw [if_neg hca] at h2 ⊢
            exact pathLe_trans as bs cs h1 h2

theorem pathLe_total : ∀ a b : List Nat, (pathLe a b || pathLe b a) = true
  | [], _ => by simp [pathLe]
  | _ :: _, [] => by simp [pathLe]
  | a :: as, b :: bs => by
    rw [pathLe, pathLe]
    by_cases h1 : a < b
    · rw [if_pos h1]
      simp
    · rw [if_neg h1]
      by_cases h2 : b < a
      · rw [if_pos h2, if_pos h2]
        simp
      · rw [if_neg h2, if_neg h2, if_neg h1]
        exact pathLe_total as bs

theorem pathLe_antisymm : ∀ a b : List Nat,
    pathLe a b = true → pathLe b a = true → a = b
  | [], [], _, _ => rfl
  | [], _ :: _, _, h => by cases h
  | _ :: _, [], h, _ => by cases h
  | a :: as, b :: bs, h1, h2 => by
    rw [pathLe] at h1 h2
    by_cases hab : a < b
    · rw [if_neg (show ¬ b < a by omega), if_pos hab] at h2
      cases h2
    · by_cases hba : b < a
      · rw [if_neg hab, if_pos hba] at h1
        cases h1
      · have habeq : a = b := by omega
        subst habeq
        rw [if_neg hab, if_neg hab] at h1
        rw [if_neg hab, if_neg hab] at h2
        rw [pathLe_antisymm as bs h1 h2]

/-- The sort order on entries used by `sort.Slice`: nondecreasing for
the negation of the `Path <` comparator. -/
def fileLe (x y : FileHash) : Prop := pathLe x.path y.path = true

instance : DecidableRel fileLe :=
  fun x y => inferInstanceAs (Decidable (pathLe x.path y.path = true))

instance : IsTotal FileHash fileLe :=
  ⟨fun a b => by
    have h := pathLe_total a.path b.path
    simp only [Bool.or_eq_true] at h
    exact h⟩

instance : IsTrans FileHash fileLe :=
  ⟨fun a b c => pathLe_trans a.path b.path c.path⟩

/-- One level of the Merkle tree: combine adjacent pairs with SHA-256,
pairing an odd trailing node with itself. -/
def combineLevel : List (List Nat) → List (List Nat)
  | [] => []
  | [a] => [hashIdeal (a ++ a)]
  | a :: b :: rest => hashIdeal (a ++ b) :: combineLevel rest

/-- The `for len(nodes) > 1` reduction loop, with explicit fuel (each
iteration at least halves the node count, so `nodes.length` rounds
suffice). -/
def rootLoopGo : Nat → List (List Nat) → List (List Nat)
  | 0, nodes => nodes
  | fuel + 1, nodes =>
    if nodes.length ≤ 1 then nodes else rootLoopGo fuel (combineLevel nodes)

/-- `ComputeMerkleRoot`: empty input yields the empty root; otherwise
sort the entries by path, take the leaf hashes, and reduce.  The
`sort.Slice` call is modelled as an insertion sort for the weak order
of the comparator (`sort.Slice` guarantees only that the output is a
sorted permutation of the input; for inputs with pairwise-distinct
paths every such sort agrees, and the counterexample below uses a
two-element tie, where Go's standard sort — like insertion sort —
keeps the input order).  The source hex-encodes the final 32 bytes;
hex encoding is injective, so root equality is stated on the raw
bytes. -/
def computeMerkleRoot (fileHashes : List FileHash) : List Nat :=
  if fileHashes = [] then []
  else
    let sorted := List.insertionSort fileLe fileHashes
    let nodes := sorted.map (fun f => f.hash)
    (rootLoopGo nodes.length nodes).headD []

/-- Two sorted lists that are permutations of each other and have
pairwise-distinct paths are equal. -/
theorem sorted_perm_nodup_eq : ∀ (l1 l2 : List FileHash),
    l1.Pairwise fileLe → l2.Pairwise fileLe →
    l1.Perm l2 → (l1.map (fun f => f.path)).Nodup → l1 = l2
  | [], l2, _, _, hperm, _ => List.Perm.nil_eq hperm
  | a :: t1, [], _, _, hperm, _ => by
    have := hperm.length_eq
    simp at this
  | a :: t1, b :: t2, hs1, hs2, hperm, hnodup => by
    rw [List.map_cons, List.nodup_cons] at hnodup
    by_cases hab : a = b
    · subst hab
      have hperm' := hperm.cons_inv
      rw [sorted_perm_nodup_eq t1 t2 (List.Pairwise.sublist (List.sublist_cons_self a t1) hs1)
        (List.Pairwise.sublist (List.sublist_cons_self a t2) hs2) hperm' hnodup.2]
    · exfalso
      have hain : a ∈ b :: t2 := hperm.mem_iff.mp (List.mem_cons_self a t1)
      have hbin : b ∈ a :: t1 := hperm.mem_iff.mpr (List.mem_cons_self b t2)
      have hain2 : a ∈ t2 := by
        rcases List.mem_cons.mp hain with h | h
        · exact absurd h hab
        · exact h
      have hbin1 : b ∈ t1 := by
        rcases List.mem_cons.mp hbin with h | h
        · exact absurd h.symm hab
        · exact h
      have h1 : pathLe a.path b.path = true := (List.pairwise_cons.mp hs1).1 b hbin1
      have h2 : pathLe b.path a.path = true := (List.pairwise_cons.mp hs2).1 a hain2
      have hpatheq : a.path = b.path := pathLe_antisymm _ _ h1 h2
      exact hnodup.1 (by
        rw [hpatheq]
        exact List.mem_map_of_mem (fun f => f.path) hbin1)

/-- Counterexample to C9 as stated: with two entries sharing a path
(but different leaf hashes), the two orderings of the same multiset
give different roots — the by-path sort cannot separate equal paths,
so the root depends on the input order. -/
theorem computeMerkleRoot_duplicate_path_order_dependent :
    (([⟨[97], [1]⟩, ⟨[97], [2]⟩] : List FileHash).Perm [⟨[97], [2]⟩, ⟨[97], [1]⟩]) ∧
    computeMerkleRoot [⟨[97], [1]⟩, ⟨[97], [2]⟩]
      ≠ computeMerkleRoot [⟨[97], [2]⟩, ⟨[97], [1]⟩] :=
  ⟨List.Perm.swap _ _ _, by decide⟩

/-- **C9 (amended).** `ComputeMerkleRoot` returns the same root for
every permutation of a given non-empty list of (path, leaf-hash) pairs
*whose paths are pairwise distinct* (as is the case for the tracked
file lists the sealer hashes): it sorts the entries by path, pairs an
odd node with itself, and combines pairwise with SHA-256, so the
sealed root hash is invariant to the files' input ordering.  (With a
duplicated path the sort order of the tied entries — and hence the
root — depends on the input order: `computeMerkleRoot_duplicate_path_order_dependent`.) -/
theorem computeMerkleRoot_perm_invariant (l1 l2 : List FileHash)
    (hperm : l1.Perm l2) (hnodup : (l1.map (fun f => f.path)).Nodup) :
    computeMerkleRoot l1 = computeMerkleRoot l2 := by
  by_cases h1 : l1 = []
  · subst h1
    rw [← List.Perm.nil_eq hperm]
  · have h2 : l2 ≠ [] := by
      intro h
      subst h
      exact h1 (List.Perm.eq_nil hperm)
    rw [computeMerkleRoot, computeMerkleRoot, if_neg h1, if_neg h2]
    have hs1 := List.sorted_insertionSort fileLe l1
    have hs2 := List.sorted_insertionSort fileLe l2
    have hp1 := List.perm_insertionSort fileLe l1
    have hp2 := List.perm_insertionSort fileLe l2
    have hpp : (List.insertionSort fileLe l1).Perm (List.insertionSort fileLe l2) :=
      (hp1.trans hperm).trans hp2.symm
    have hnodup1 : ((List.insertionSort fileLe l1).map (fun f => f.path)).Nodup :=
      hnodup.perm (hp1.map (fun f => f.path)).symm
    have heq := sorted_perm_nodup_eq _ _ hs1 hs2 hpp hnodup1
    rw [heq]

/-- Witness for `computeMerkleRoot_perm_invariant`: two distinct-path
entries in both orders give the same root. -/
theorem computeMerkleRoot_perm_invariant_witness :
    computeMerkleRoot [⟨[97], [1]⟩, ⟨[98], [2]⟩]
      = computeMerkleRoot [⟨[98], [2]⟩, ⟨[97], [1]⟩] :=
  computeMerkleRoot_perm_invariant _ _ (List.Perm.swap _ _ _) (by decide)

end Mlsgit

namespace Mlsgit

/-! ## Claim C1: sync consistency after any add/remove sequence -/

theorem pad32_of_length {l : List Nat} (h : l.length = 32) : pad32 l = l := by
  rw [pad32, h]
  simp [List.take_of_length_le (le_of_eq h)]

theorem pad32_pad32 (l : List Nat) : pad32 (pad32 l) = pad32 l :=
  pad32_of_length (pad32_length l)

theorem setInactive_length : ∀ (ms : List MemberEntry) (i : Nat),
    (setInactive ms i).length = ms.length
  | [], _ => rfl
  | _ :: _, 0 => rfl
  | m :: t, n + 1 => by
    rw [setInactive]
    simp [setInactive_length t n]

theorem setInactive_getD_ne : ∀ (ms : List MemberEntry) (i j : Nat), i ≠ j →
    (setInactive ms i).getD j defaultMember = ms.getD j defaultMember
  | [], _, _, _ => rfl
  | m :: t, 0, 0, h => absurd rfl h
  | m :: t, 0, j + 1, _ => by rw [setInactive]; simp
  | m :: t, i + 1, 0, _ => by rw [setInactive]; simp
  | m :: t, i + 1, j + 1, h => by
    rw [setInactive]
    simpa using setInactive_getD_ne t i j (by omega)

theorem setInactive_getD_self : ∀ (ms : List MemberEntry) (i : Nat), i < ms.length →
    (setInactive ms i).getD i defaultMember
      = { ms.getD i defaultMember with active := false }
  | [], _, h => by simp at h
  | m :: t, 0, _ => by rw [setInactive]; simp
  | m :: t, i + 1, h => by
    rw [setInactive]
    simpa using setInactive_getD_self t i (by simpa using h)

/-- Invert a successful `removeMember`: the guards passed and the new
state is the DH-advance of the state with the target marked inactive. -/
theorem removeMember_ok (g : MLSGitGroup) (leaf : Int) (u e : List Nat)
    (nn : Nat → List Nat) (ga : MLSGitGroup) (c : CommittedGroupState)
    (h : removeMember g leaf u e nn = (ga, Except.ok c)) :
    ¬(leaf < 0 ∨ (g.members.length : Int) ≤ leaf) ∧ leaf ≠ (g.ownLeafIndex : Int) ∧
    ga = advanceEpochDH { g with members := setInactive g.members leaf.toNat } u e nn := by
  unfold removeMember at h
  by_cases h1 : leaf < 0 ∨ (g.members.length : Int) ≤ leaf
  · rw [if_pos h1] at h
    exact absurd (congrArg Prod.snd h) (by simp)
  · rw [if_neg h1] at h
    by_cases h2 : leaf = (g.ownLeafIndex : Int)
    · rw [if_pos h2] at h
      exact absurd (congrArg Prod.snd h) (by simp)
    · rw [if_neg h2] at h
      exact ⟨h1, h2, (congrArg Prod.fst h).symm⟩

/-- Invert a successful `applyOp` into the two operation shapes. -/
theorem applyOp_some (g g1 : MLSGitGroup) (op : GroupOp) (h : applyOp g op = some g1) :
    (∃ kp : KeyPackageData,
      op = .add kp ∧
      g1 = advanceEpoch { g with members := g.members ++ [⟨kp.sigPub, kp.initPub, true⟩] }) ∨
    (∃ (leaf : Int) (u e : List Nat) (nn : Nat → List Nat),
      op = .remove leaf u e nn ∧
      ¬(leaf < 0 ∨ (g.members.length : Int) ≤ leaf) ∧ leaf ≠ (g.ownLeafIndex : Int) ∧
      g1 = advanceEpochDH { g with members := setInactive g.members leaf.toNat } u e nn) := by
  cases op with
  | add kp =>
    left
    simp only [applyOp, Option.some.injEq] at h
    exact ⟨kp, rfl, h.symm⟩
  | remove leaf u e nn =>
    right
    rw [applyOp] at h
    cases hrm : removeMember g leaf u e nn with
    | mk ga r =>
      rw [hrm] at h
      cases r with
      | error s => simp at h
      | ok c =>
        simp only [Option.some.injEq] at h
        obtain ⟨h1, h2, h3⟩ := removeMember_ok g leaf u e nn ga c hrm
        refine ⟨leaf, u, e, nn, rfl, h1, h2, ?_⟩
        rw [← h]
        exact h3

theorem applyOp_epoch (g g1 : MLSGitGroup) (op : GroupOp)
    (h : applyOp g op = some g1) : g1.epoch = g.epoch + 1 := by
  rcases applyOp_some g g1 op h with ⟨kp, _, hg⟩ | ⟨leaf, u, e, nn, _, _, _, hg⟩ <;>
    (subst hg; rfl)

theorem applyOps_epoch : ∀ (ops : List GroupOp) (g g' : MLSGitGroup),
    applyOps g ops = some g' → g'.epoch = g.epoch + ops.length
  | [], g, g', h => by
    simp only [applyOps, Option.some.injEq] at h
    rw [← h]
    simp
  | op :: rest, g, g', h => by
    rw [applyOps] at h
    cases happ : applyOp g op with
    | none => rw [happ] at h; simp at h
    | some g1 =>
      rw [happ] at h
      simp only [Option.some_bind] at h
      have h1 := applyOps_epoch rest g1 g' h
      have h2 := applyOp_epoch g g1 op happ
      simp only [List.length_cons]
      omega

theorem applyOp_members_length (g g1 : MLSGitGroup) (op : GroupOp)
    (h : applyOp g op = some g1) : g.members.length ≤ g1.members.length := by
  rcases applyOp_some g g1 op h with ⟨kp, _, hg⟩ | ⟨leaf, u, e, nn, _, _, _, hg⟩ <;> subst hg
  · simp [advanceEpoch]
  · show g.members.length ≤ (setInactive g.members leaf.toNat).length
    rw [setInactive_length]

theorem applyOps_members_length : ∀ (ops : List GroupOp) (g g' : MLSGitGroup),
    applyOps g ops = some g' → g.members.length ≤ g'.members.length
  | [], g, g', h => by
    simp only [applyOps, Option.some.injEq] at h
    rw [← h]
  | op :: rest, g, g', h => by
    rw [applyOps] at h
    cases happ : applyOp g op with
    | none => rw [happ] at h; simp at h
    | some g1 =>
      rw [happ] at h
      simp only [Option.some_bind] at h
      exact le_trans (applyOp_members_length g g1 op happ)
        (applyOps_members_length rest g1 g' h)

end Mlsgit

namespace Mlsgit

/-- One operation either leaves a member entry unchanged or marks it
inactive. -/
theorem applyOp_getD (g g1 : MLSGitGroup) (op : GroupOp)
    (h : applyOp g op = some g1) (i : Nat) (hi : i < g.members.length) :
    g1.members.getD i defaultMember = g.members.getD i defaultMember ∨
    g1.members.getD i defaultMember
      = { g.members.getD i defaultMember with active := false } := by
  rcases applyOp_some g g1 op h with ⟨kp, _, hg⟩ | ⟨leaf, u, e, nn, _, _, _, hg⟩ <;> subst hg
  · left
    show (g.members ++ [_]).getD i defaultMember = _
    exact List.getD_append _ _ _ _ hi
  · show (setInactive g.members leaf.toNat).getD i defaultMember = _ ∨
      (setInactive g.members leaf.toNat).getD i defaultMember = _
    by_cases hl : leaf.toNat = i
    · right
      rw [← hl]
      exact setInactive_getD_self g.members leaf.toNat (by omega)
    · left
      exact setInactive_getD_ne g.members leaf.toNat i hl

/-- Once a member entry is inactive it stays inactive through any
sequence of operations. -/
theorem applyOps_inactive : ∀ (ops : List GroupOp) (g g' : MLSGitGroup),
    applyOps g ops = some g' → ∀ i, i < g.members.length →
    (g.members.getD i defaultMember).active = false →
    (g'.members.getD i defaultMember).active = false
  | [], g, g', h, i, _, hact => by
    simp only [applyOps, Option.some.injEq] at h
    rw [← h]
    exact hact
  | op :: rest, g, g', h, i, hi, hact => by
    rw [applyOps] at h
    cases happ : applyOp g op with
    | none => rw [happ] at h; simp at h
    | some g1 =>
      rw [happ] at h
      simp only [Option.some_bind] at h
      have hi1 : i < g1.members.length :=
        lt_of_lt_of_le hi (applyOp_members_length g g1 op happ)
      refine applyOps_inactive rest g1 g' h i hi1 ?_
      rcases applyOp_getD g g1 op happ i hi with heq | heq
      · rw [heq]
        exact hact
      · rw [heq]

/-- A member entry that is still active after a sequence of operations
was never touched: it equals the original entry. -/
theorem applyOps_active_getD : ∀ (ops : List GroupOp) (g g' : MLSGitGroup),
    applyOps g ops = some g' → ∀ i, i < g.members.length →
    (g'.members.getD i defaultMember).active = true →
    g'.members.getD i defaultMember = g.members.getD i defaultMember
  | [], g, g', h, i, _, _ => by
    simp only [applyOps, Option.some.injEq] at h
    rw [← h]
  | op :: rest, g, g', h, i, hi, hact => by
    rw [applyOps] at h
    cases happ : applyOp g op with
    | none => rw [happ] at h; simp at h
    | some g1 =>
      rw [happ] at h
      simp only [Option.some_bind] at h
      have hi1 : i < g1.members.length :=
        lt_of_lt_of_le hi (applyOp_members_length g g1 op happ)
      have hstep := applyOps_active_getD rest g1 g' h i hi1 hact
      rcases applyOp_getD g g1 op happ i hi with heq | heq
      · rw [hstep, heq]
      · exfalso
        have hfalse : (g1.members.getD i defaultMember).active = false := by
          rw [heq]
        have := applyOps_inactive rest g1 g' h i hi1 hfalse
        rw [this] at hact
        cases hact

/-- One operation extends the encapsulation list by nothing or by a
single entry stamped with the pre-operation epoch. -/
theorem applyOp_encaps (g g1 : MLSGitGroup) (op : GroupOp)
    (h : applyOp g op = some g1) :
    g1.updateEncaps = g.updateEncaps ∨
    ∃ enc, g1.updateEncaps = g.updateEncaps ++ [enc] ∧ enc.fromEpoch = g.epoch := by
  rcases applyOp_some g g1 op h with ⟨kp, _, hg⟩ | ⟨leaf, u, e, nn, _, _, _, hg⟩ <;> subst hg
  · left
    rfl
  · right
    exact ⟨_, rfl, rfl⟩

/-- A sequence of operations only appends encapsulations, all stamped
with epochs at or above the starting epoch. -/
theorem applyOps_encaps_suffix : ∀ (ops : List GroupOp) (g g' : MLSGitGroup),
    applyOps g ops = some g' →
    ∃ suf, g'.updateEncaps = g.updateEncaps ++ suf ∧
      ∀ enc ∈ suf, g.epoch ≤ enc.fromEpoch
  | [], g, g', h => by
    simp only [applyOps, Option.some.injEq] at h
    rw [← h]
    exact ⟨[], by simp, by simp⟩
  | op :: rest, g, g', h => by
    rw [applyOps] at h
    cases happ : applyOp g op with
    | none => rw [happ] at h; simp at h
    | some g1 =>
      rw [happ] at h
      simp only [Option.some_bind] at h
      obtain ⟨suf1, hs1, hge1⟩ := applyOps_encaps_suffix rest g1 g' h
      have hep1 : g1.epoch = g.epoch + 1 := applyOp_epoch g g1 op happ
      rcases applyOp_encaps g g1 op happ with heq | ⟨enc, heq, henc⟩
      · refine ⟨suf1, by rw [hs1, heq], fun x hx => ?_⟩
        have := hge1 x hx
        omega
      · refine ⟨enc :: suf1, ?_, fun x hx => ?_⟩
        · rw [hs1, heq, List.append_assoc]
          rfl
        · rcases List.mem_cons.mp hx with hx | hx
          · subst hx
            omega
          · have := hge1 x hx
            omega

end Mlsgit

namespace Mlsgit

/-- Locating the encapsulation entry addressed to an active leaf in the
enumerate-filter-encrypt pipeline of `advanceEpochDH`. -/
theorem find?_enumFrom_active : ∀ (ms : List MemberEntry) (k i : Nat),
    i < ms.length → (ms.getD i defaultMember).active = true →
    ((List.enumFrom k ms).filter (fun p => p.2.active)).find? (fun p => p.1 = k + i)
      = some (k + i, ms.getD i defaultMember)
  | [], _, i, hi, _ => by simp at hi
  | m :: t, k, 0, _, hact => by
    rw [List.getD_cons_zero] at hact ⊢
    rw [List.enumFrom_cons, List.filter_cons, if_pos hact]
    rw [List.find?_cons_of_pos _ (by simp)]
    rw [Nat.add_zero]
  | m :: t, k, i + 1, hi, hact => by
    rw [List.getD_cons_succ] at hact
    rw [List.getD_cons_succ, List.enumFrom_cons, List.filter_cons]
    rw [show k + (i + 1) = k + 1 + i by omega]
    by_cases hm : m.active = true
    · rw [if_pos hm]
      rw [List.find?_cons_of_neg _ (by simp; omega)]
      exact find?_enumFrom_active t (k + 1) i (by simpa using hi) hact
    · rw [if_neg hm]
      exact find?_enumFrom_active t (k + 1) i (by simpa using hi) hact

theorem find?_enum_active (ms : List MemberEntry) (i : Nat)
    (hi : i < ms.length) (hact : (ms.getD i defaultMember).active = true) :
    ((ms.enum).filter (fun p => p.2.active)).find? (fun p => p.1 = i)
      = some (i, ms.getD i defaultMember) := by
  have h := find?_enumFrom_active ms 0 i hi hact
  rw [Nat.zero_add] at h
  exact h

/-- `applyDHAdvance` on the canonical encapsulation produced by
`advanceEpochDH`: an active member whose stored init public key matches
its private key recovers the update secret and derives the same next
epoch secret as the committer. -/
theorem applyDHAdvance_dh (gB : MLSGitGroup) (ms : List MemberEntry) (u e : List Nat)
    (nonces : Nat → List Nat) (ep : Nat) (enc : UpdateEncap)
    (hent : enc.entries = (ms.enum.filter (fun p => p.2.active)).map (fun p =>
      ({ leafIndex := p.1
         ciphertext := mkNonce (nonces p.1) ++
           aesgcmEnc (deriveEncapKey (x25519Ideal (pad32 e) p.2.initPub) ep)
             (mkNonce (nonces p.1)) (pad32 u) } : EncapEntry)))
    (heph : enc.ephPub = x25519Ideal (pad32 e) basePoint)
    (hlen : gB.ownLeafIndex < ms.length)
    (hact : (ms.getD gB.ownLeafIndex defaultMember).active = true)
    (hpub : (ms.getD gB.ownLeafIndex defaultMember).initPub
      = x25519Ideal gB.initPriv basePoint)
    (hep : gB.epoch = ep) :
    applyDHAdvance gB enc
      = some { gB with
          epochSecret := hkdfIdeal (pad32 gB.epochSecret ++ pad32 u) (be64 ep)
            labelEpochAdvance
          epoch := gB.epoch + 1 } := by
  have hfind : enc.entries.find? (fun q => q.leafIndex = gB.ownLeafIndex)
      = some ({ leafIndex := gB.ownLeafIndex
                ciphertext := mkNonce (nonces gB.ownLeafIndex) ++
                  aesgcmEnc (deriveEncapKey (x25519Ideal (pad32 e)
                      (ms.getD gB.ownLeafIndex defaultMember).initPub) ep)
                    (mkNonce (nonces gB.ownLeafIndex)) (pad32 u) } : EncapEntry) := by
    rw [hent, List.find?_map]
    rw [show ((fun q : EncapEntry => decide (q.leafIndex = gB.ownLeafIndex)) ∘
        (fun p : Nat × MemberEntry =>
          ({ leafIndex := p.1
             ciphertext := mkNonce (nonces p.1) ++
               aesgcmEnc (deriveEncapKey (x25519Ideal (pad32 e) p.2.initPub) ep)
                 (mkNonce (nonces p.1)) (pad32 u) } : EncapEntry)))
        = (fun p : Nat × MemberEntry => decide (p.1 = gB.ownLeafIndex)) from rfl]
    rw [find?_enum_active ms gB.ownLeafIndex hlen hact]
    rfl
  rw [applyDHAdvance, hfind]
  simp only []
  rw [if_neg (by simp)]
  rw [List.take_left' (mkNonce_length _), List.drop_left' (mkNonce_length _)]
  rw [heph]
  rw [show deriveEncapKey (x25519Ideal gB.initPriv (x25519Ideal (pad32 e) basePoint))
        gB.epoch
      = deriveEncapKey (x25519Ideal (pad32 e)
          (ms.getD gB.ownLeafIndex defaultMember).initPub) ep from by
    rw [x25519_comm, ← hpub, hep]]
  rw [aesgcmDec_enc]
  simp only []
  rw [pad32_pad32, hep]

end Mlsgit

namespace Mlsgit

/-- The catch-up loop of `SyncFromCommitted` run against the final
encapsulation list: a peer that shares the committer's state at the
starting epoch, is still active at the end, and holds the private key
matching its stored init public key, ratchets successfully to the
committer's final epoch and epoch secret. -/
theorem ratchet_catch_up : ∀ (ops : List GroupOp) (g gA gB : MLSGitGroup),
    applyOps g ops = some gA →
    (∀ enc ∈ g.updateEncaps, enc.fromEpoch < g.epoch) →
    gB.epoch = g.epoch →
    gB.epochSecret = g.epochSecret →
    gB.ownLeafIndex < g.members.length →
    (g.members.getD gB.ownLeafIndex defaultMember).initPub
      = x25519Ideal gB.initPriv basePoint →
    (gA.members.getD gB.ownLeafIndex defaultMember).active = true →
    ratchetLoop gA.updateEncaps (gA.epoch - g.epoch) gB
      = (true, { gB with epoch := gA.epoch, epochSecret := gA.epochSecret })
  | [], g, gA, gB, hops, _, hep, hsec, _, _, _ => by
    simp only [applyOps, Option.some.injEq] at hops
    subst hops
    rw [show g.epoch - g.epoch = 0 by omega]
    simp only [ratchetLoop]
    rw [← hep, ← hsec]
  | op :: rest, g, gA, gB, hops, hold, hep, hsec, hlen, hpub, hact => by
    rw [applyOps] at hops
    cases happ : applyOp g op with
    | none => rw [happ] at hops; simp at hops
    | some g1 =>
      rw [happ] at hops
      simp only [Option.some_bind] at hops
      have hops0 : applyOps g (op :: rest) = some gA := by
        rw [applyOps, happ]
        simp only [Option.some_bind]
        exact hops
      have hep1 : g1.epoch = g.epoch + 1 := applyOp_epoch g g1 op happ
      have hepA : gA.epoch = g1.epoch + rest.length := applyOps_epoch rest g1 gA hops
      have hlen1 : gB.ownLeafIndex < g1.members.length :=
        lt_of_lt_of_le hlen (applyOp_members_length g g1 op happ)
      have hA1 : gA.members.getD gB.ownLeafIndex defaultMember
          = g1.members.getD gB.ownLeafIndex defaultMember :=
        applyOps_active_getD rest g1 gA hops gB.ownLeafIndex hlen1 hact
      have hA0 : gA.members.getD gB.ownLeafIndex defaultMember
          = g.members.getD gB.ownLeafIndex defaultMember :=
        applyOps_active_getD (op :: rest) g gA hops0 gB.ownLeafIndex hlen hact
      have hgetD1 : g1.members.getD gB.ownLeafIndex defaultMember
          = g.members.getD gB.ownLeafIndex defaultMember := by
        rw [← hA1]
        exact hA0
      have hact1 : (g1.members.getD gB.ownLeafIndex defaultMember).active = true := by
        rw [← hA1]
        exact hact
      obtain ⟨suf, hsufeq, hsufge⟩ := applyOps_encaps_suffix rest g1 gA hops
      rw [show gA.epoch - g.epoch = (gA.epoch - g1.epoch) + 1 by omega]
      simp only [ratchetLoop]
      rcases applyOp_some g g1 op happ with ⟨kp, hop, hg1⟩ |
        ⟨leaf, u, e, nn, hop, hinb, hself, hg1⟩
      · -- AddMember step: deterministic advance on both sides
        have hg1enc : g1.updateEncaps = g.updateEncaps := by rw [hg1]; rfl
        have hnone : gA.updateEncaps.find? (fun enc => enc.fromEpoch = gB.epoch)
            = none := by
          apply List.find?_eq_none.mpr
          intro x hx
          rw [hsufeq, hg1enc] at hx
          simp only [decide_eq_true_eq]
          rcases List.mem_append.mp hx with hx | hx
          · have := hold x hx
            omega
          · have := hsufge x hx
            omega
        have hadv : advanceOneEpoch gB gA.updateEncaps = some (advanceEpoch gB) := by
          rw [advanceOneEpoch, hnone]
        rw [hadv]
        simp only []
        have hold1 : ∀ x ∈ g1.updateEncaps, x.fromEpoch < g1.epoch := by
          intro x hx
          rw [hg1enc] at hx
          have := hold x hx
          omega
        have hep1' : (advanceEpoch gB).epoch = g1.epoch := by
          show gB.epoch + 1 = g1.epoch
          omega
        have hsec1 : (advanceEpoch gB).epochSecret = g1.epochSecret := by
          show hkdfIdeal gB.epochSecret (be64 gB.epoch) labelEpochAdvance = g1.epochSecret
          rw [hg1]
          show _ = hkdfIdeal g.epochSecret (be64 g.epoch) labelEpochAdvance
          rw [hep, hsec]
        have hpub1 : (g1.members.getD (advanceEpoch gB).ownLeafIndex
            defaultMember).initPub = x25519Ideal (advanceEpoch gB).initPriv basePoint := by
          show (g1.members.getD gB.ownLeafIndex defaultMember).initPub
            = x25519Ideal gB.initPriv basePoint
          rw [hgetD1]
          exact hpub
        rw [ratchet_catch_up rest g1 gA (advanceEpoch gB) hops hold1 hep1' hsec1
          hlen1 hpub1 hact]
        rfl
      · -- RemoveMember step: DH advance and decapsulation
        have hg1enc : g1.updateEncaps = g.updateEncaps ++
            [{ fromEpoch := g.epoch
               ephPub := x25519Ideal (pad32 e) basePoint
               entries := ((setInactive g.members leaf.toNat).enum.filter
                 (fun p => p.2.active)).map (fun p =>
                 ({ leafIndex := p.1
                    ciphertext := mkNonce (nn p.1) ++
                      aesgcmEnc (deriveEncapKey (x25519Ideal (pad32 e) p.2.initPub)
                          g.epoch)
                        (mkNonce (nn p.1)) (pad32 u) } : EncapEntry)) }] := by
          rw [hg1]
          rfl
        have hms : g1.members = setInactive g.members leaf.toNat := by
          rw [hg1]
          rfl
        have hfind : gA.updateEncaps.find? (fun enc => enc.fromEpoch = gB.epoch)
            = some { fromEpoch := g.epoch
                     ephPub := x25519Ideal (pad32 e) basePoint
                     entries := ((setInactive g.members leaf.toNat).enum.filter
                       (fun p => p.2.active)).map (fun p =>
                       ({ leafIndex := p.1
                          ciphertext := mkNonce (nn p.1) ++
                            aesgcmEnc (deriveEncapKey
                                (x25519Ideal (pad32 e) p.2.initPub) g.epoch)
                              (mkNonce (nn p.1)) (pad32 u) } : EncapEntry)) } := by
          rw [hsufeq, hg1enc, List.find?_append, List.find?_append]
          have h1 : g.updateEncaps.find? (fun enc => enc.fromEpoch = gB.epoch)
              = none := by
            apply List.find?_eq_none.mpr
            intro x hx
            simp only [decide_eq_true_eq]
            have := hold x hx
            omega
          rw [h1, Option.none_or]
          rw [List.find?_cons_of_pos _ (by
            show decide (g.epoch = gB.epoch) = true
            simp only [decide_eq_true_eq]
            omega)]
          rfl
        have hadv : advanceOneEpoch gB gA.updateEncaps
            = applyDHAdvance gB
              { fromEpoch := g.epoch
                ephPub := x25519Ideal (pad32 e) basePoint
                entries := ((setInactive g.members leaf.toNat).enum.filter
                  (fun p => p.2.active)).map (fun p =>
                  ({ leafIndex := p.1
                     ciphertext := mkNonce (nn p.1) ++
                       aesgcmEnc (deriveEncapKey
                           (x25519Ideal (pad32 e) p.2.initPub) g.epoch)
                         (mkNonce (nn p.1)) (pad32 u) } : EncapEntry)) } := by
          rw [advanceOneEpoch, hfind]
        rw [hadv]
        have hlenm : gB.ownLeafIndex < (setInactive g.members leaf.toNat).length := by
          rw [setInactive_length]
          exact hlen
        have hactm : ((setInactive g.members leaf.toNat).getD gB.ownLeafIndex
            defaultMember).active = true := by
          rw [← hms]
          exact hact1
        have hpubm : ((setInactive g.members leaf.toNat).getD gB.ownLeafIndex
            defaultMember).initPub = x25519Ideal gB.initPriv basePoint := by
          rw [← hms, hgetD1]
          exact hpub
        rw [applyDHAdvance_dh gB (setInactive g.members leaf.toNat) u e nn g.epoch _
          rfl rfl hlenm hactm hpubm hep]
        simp only []
        have hold1 : ∀ x ∈ g1.updateEncaps, x.fromEpoch < g1.epoch := by
          intro x hx
          rw [hg1enc] at hx
          rcases List.mem_append.mp hx with hx | hx
          · have := hold x hx
            omega
          · rw [List.mem_singleton] at hx
            subst hx
            show g.epoch < g1.epoch
            omega
        have hep1' : ({ gB with
            epochSecret := hkdfIdeal (pad32 gB.epochSecret ++ pad32 u) (be64 g.epoch)
              labelEpochAdvance
            epoch := gB.epoch + 1 } : MLSGitGroup).epoch = g1.epoch := by
          show gB.epoch + 1 = g1.epoch
          omega
        have hsec1 : ({ gB with
            epochSecret := hkdfIdeal (pad32 gB.epochSecret ++ pad32 u) (be64 g.epoch)
              labelEpochAdvance
            epoch := gB.epoch + 1 } : MLSGitGroup).epochSecret = g1.epochSecret := by
          show hkdfIdeal (pad32 gB.epochSecret ++ pad32 u) (be64 g.epoch)
            labelEpochAdvance = g1.epochSecret
          rw [hg1]
          show _ = hkdfIdeal (pad32 g.epochSecret ++ pad32 u) (be64 g.epoch)
            labelEpochAdvance
          rw [hsec]
        have hpub1 : (g1.members.getD gB.ownLeafIndex defaultMember).initPub
            = x25519Ideal gB.initPriv basePoint := by
          rw [hgetD1]
          exact hpub
        rw [ratchet_catch_up rest g1 gA
          { gB with
            epochSecret := hkdfIdeal (pad32 gB.epochSecret ++ pad32 u) (be64 g.epoch)
              labelEpochAdvance
            epoch := gB.epoch + 1 } hops hold1 hep1' hsec1 hlen1 hpub1 hact]

end Mlsgit

namespace Mlsgit

/-- **C1.** If one peer advances a group from epoch `n` by any
non-empty sequence of successful `AddMember`/`RemoveMember` calls and
publishes the resulting committed state, then any other peer holding
the same group state at epoch `n` — same epoch, epoch secret, members
and (as an invariant of reachable states) only encapsulations from
past epochs — whose leaf is in range and still active in the committed
members list, and whose init private key matches its stored init
public key, obtains from `SyncFromCommitted`: result `true`, the
committer's final epoch `n + k`, and a state whose
`ExportEpochSecret` is byte-equal to the committer's. -/
theorem sync_from_committed_consistency (g gB gA : MLSGitGroup) (ops : List GroupOp)
    (hops : applyOps g ops = some gA)
    (hne : ops ≠ [])
    (hold : ∀ enc ∈ g.updateEncaps, enc.fromEpoch < g.epoch)
    (hep : gB.epoch = g.epoch)
    (hsec : gB.epochSecret = g.epochSecret)
    (hlen : gB.ownLeafIndex < g.members.length)
    (hpub : (g.members.getD gB.ownLeafIndex defaultMember).initPub
      = x25519Ideal gB.initPriv basePoint)
    (hact : (gA.members.getD gB.ownLeafIndex defaultMember).active = true) :
    syncFromCommitted gB (toCommitted gA)
      = (true, { gB with
          groupID := gA.groupID
          epoch := gA.epoch
          epochSecret := gA.epochSecret
          members := gA.members
          updateEncaps := gA.updateEncaps }) ∧
    (syncFromCommitted gB (toCommitted gA)).2.epoch = g.epoch + ops.length ∧
    exportEpochSecret (syncFromCommitted gB (toCommitted gA)).2
      = exportEpochSecret gA := by
  have hepA : gA.epoch = g.epoch + ops.length := applyOps_epoch ops g gA hops
  have hk : 0 < ops.length := List.length_pos.mpr hne
  have hlenA : g.members.length ≤ gA.members.length :=
    applyOps_members_length ops g gA hops
  have hloop := ratchet_catch_up ops g gA gB hops hold hep hsec hlen hpub hact
  rw [← hep] at hloop
  have hrem : ¬(gA.members.length ≤ gB.ownLeafIndex ∨
      (gA.members.getD gB.ownLeafIndex defaultMember).active = false) := by
    intro h
    rcases h with h | h
    · omega
    · rw [hact] at h
      exact Bool.noConfusion h
  have hmain : syncFromCommitted gB (toCommitted gA)
      = (true, { gB with
          groupID := gA.groupID
          epoch := gA.epoch
          epochSecret := gA.epochSecret
          members := gA.members
          updateEncaps := gA.updateEncaps }) := by
    unfold syncFromCommitted
    simp only [toCommitted]
    rw [if_neg (show ¬(gA.epoch < gB.epoch) by omega)]
    rw [if_neg (show ¬(gA.epoch = gB.epoch) by omega)]
    rw [if_neg hrem]
    rw [hloop]
  refine ⟨hmain, ?_, ?_⟩
  · rw [hmain]
    show gA.epoch = g.epoch + ops.length
    exact hepA
  · rw [hmain]
    rfl

end Mlsgit

namespace Mlsgit

/-- Witness for `sync_from_committed_consistency`: a two-member group
in which the peer at leaf 1 adds a third member and the peer at leaf 0
catches up from the committed state. -/
theorem sync_from_committed_consistency_witness :
    (let g : MLSGitGroup :=
      { groupID := [1], epoch := 0, epochSecret := [7]
        members := [⟨[2], x25519Ideal [5] basePoint, true⟩, ⟨[3], [4], true⟩]
        ownLeafIndex := 1, updateEncaps := [], sigKey := [8], initPriv := [9] }
    let gB : MLSGitGroup :=
      { groupID := [1], epoch := 0, epochSecret := [7]
        members := [⟨[2], x25519Ideal [5] basePoint, true⟩, ⟨[3], [4], true⟩]
        ownLeafIndex := 0, updateEncaps := [], sigKey := [10], initPriv := [5] }
    let gA : MLSGitGroup :=
      advanceEpoch
        { groupID := [1], epoch := 0, epochSecret := [7]
          members := [⟨[2], x25519Ideal [5] basePoint, true⟩, ⟨[3], [4], true⟩,
            ⟨[21], [22], true⟩]
          ownLeafIndex := 1, updateEncaps := [], sigKey := [8], initPriv := [9] }
    syncFromCommitted gB (toCommitted gA)
      = (true, { gB with
          groupID := gA.groupID
          epoch := gA.epoch
          epochSecret := gA.epochSecret
          members := gA.members
          updateEncaps := gA.updateEncaps }) ∧
    (syncFromCommitted gB (toCommitted gA)).2.epoch
      = g.epoch + [GroupOp.add ⟨[20], [21], [22]⟩].length ∧
    exportEpochSecret (syncFromCommitted gB (toCommitted gA)).2
      = exportEpochSecret gA) := by
  exact sync_from_committed_consistency
    { groupID := [1], epoch := 0, epochSecret := [7]
      members := [⟨[2], x25519Ideal [5] basePoint, true⟩, ⟨[3], [4], true⟩]
      ownLeafIndex := 1, updateEncaps := [], sigKey := [8], initPriv := [9] }
    { groupID := [1], epoch := 0, epochSecret := [7]
      members := [⟨[2], x25519Ideal [5] basePoint, true⟩, ⟨[3], [4], true⟩]
      ownLeafIndex := 0, updateEncaps := [], sigKey := [10], initPriv := [5] }
    (advanceEpoch
      { groupID := [1], epoch := 0, epochSecret := [7]
        members := [⟨[2], x25519Ideal [5] basePoint, true⟩, ⟨[3], [4], true⟩,
          ⟨[21], [22], true⟩]
        ownLeafIndex := 1, updateEncaps := [], sigKey := [8], initPriv := [9] })
    [GroupOp.add ⟨[20], [21], [22]⟩]
    (by rfl)
    (by simp)
    (by intro x hx; simp at hx)
    rfl rfl
    (by decide)
    (by decide)
    (by decide)

end Mlsgit
